import Mathlib

/-!
Verification of the SuperSearch document search engine: the AVL-tree inverted
index (`AvlTree.h`), its text-file persistence codec, and the boolean/ranked
query engine (`QueryProcessor.h`).  C++ strings are embedded as `List Char`,
`std::map<std::string, int>` as a key-sorted association list, and the AVL tree
as an inductive type carrying the stored height field.  The private recursive
helpers of `AvlTree` (insertion/rotation, node search, serialization writer)
are not present in the header, so they are modelled from the specification
(§4.1, §6); everything else is translated directly from the source.
-/

namespace SuperSearch

/-- A C++ `std::string`, embedded as its character sequence. -/
abbrev Str := List Char

/-- Lexicographic `operator<` on `std::string`. -/
def ltStr : Str → Str → Bool
  | [], [] => false
  | [], _ :: _ => true
  | _ :: _, [] => false
  | a :: s, b :: t => if a < b then true else if b < a then false else ltStr s t

/-- A `std::map<std::string, int>` posting map: document id → frequency,
kept as a list sorted strictly ascending by key. -/
abbrev PMap := List (Str × Int)

/-- `std::map::find` followed by dereference: first entry with the given key. -/
def mapFind : PMap → Str → Option Int
  | [], _ => none
  | (a, v) :: rest, k => if a = k then some v else mapFind rest k

/-- `m[k] += c` on a `std::map<std::string,int>`: insert `(k, c)` at the sorted
position if absent (value-initialised to 0 then incremented), else add `c`. -/
def mapAdd : PMap → Str → Int → PMap
  | [], k, c => [(k, c)]
  | (a, v) :: rest, k, c =>
    if ltStr k a then (k, c) :: (a, v) :: rest
    else if ltStr a k then (a, v) :: mapAdd rest k c
    else (a, v + c) :: rest

/-- `m[k] = c` on a `std::map<std::string,int>`: insert at the sorted position
if absent, else overwrite. -/
def mapSet : PMap → Str → Int → PMap
  | [], k, c => [(k, c)]
  | (a, v) :: rest, k, c =>
    if ltStr k a then (k, c) :: (a, v) :: rest
    else if ltStr a k then (a, v) :: mapSet rest k c
    else (a, c) :: rest

/-- `std::map::insert(pair)`: insert at the sorted position, keep the existing
entry if the key is already present. -/
def mapInsertKeep : PMap → Str → Int → PMap
  | [], k, c => [(k, c)]
  | (a, v) :: rest, k, c =>
    if ltStr k a then (k, c) :: (a, v) :: rest
    else if ltStr a k then (a, v) :: mapInsertKeep rest k c
    else (a, v) :: rest

/-- `std::map::erase(iterator-at-k)`: remove the entry with the given key. -/
def mapErase : PMap → Str → PMap
  | [], _ => []
  | (a, v) :: rest, k => if a = k then rest else (a, v) :: mapErase rest k

/-- Strict ascending sortedness of the keys of an association list:
the representation invariant of every `std::map` in the program. -/
def keySortedB {α : Type} : List (Str × α) → Bool
  | [] => true
  | [_] => true
  | (a, _) :: (b, y) :: rest => ltStr a b && keySortedB ((b, y) :: rest)

/-! ### The AVL tree (`AvlTree<std::string>`)

`AvlNode` carries the key, the two children, the stored `height` field and the
`wordMap` posting map.  The empty tree is `nil`; `nh` is the C++ helper
`height(t)` which returns `-1` for a null pointer, `rh` is the true
(recomputed) height. -/

/-- An `AvlNode*`: null, or a node with key, children, stored height, postings. -/
inductive Tree where
  | nil : Tree
  | node : Str → Tree → Tree → Int → PMap → Tree
deriving DecidableEq

/-- The C++ `height(AvlNode *t)` accessor: `-1` for null, else the stored field. -/
def nh : Tree → Int
  | .nil => -1
  | .node _ _ _ h _ => h

/-- The true height of the tree (empty tree has height `-1`). -/
def rh : Tree → Int
  | .nil => -1
  | .node _ l r _ _ => max (rh l) (rh r) + 1

/-- The final height refresh `t->height = max(height(t->left), height(t->right)) + 1`
performed at the end of `balance`. -/
def setHeight : Tree → Tree
  | .nil => .nil
  | .node k l r _ m => .node k l r (max (nh l) (nh r) + 1) m

/-- Modelled from the spec: `rotateWithLeftChild` (single right rotation), one of
the four private rotation helpers of `AvlTree` absent from the header; classic
Weiss-style AVL rotation per §4.1, updating the two stored heights it touches. -/
def rotL : Tree → Tree
  | .node k2 (.node k1 a b _ m1) r _ m2 =>
    Tree.node k1 a (Tree.node k2 b r (max (nh b) (nh r) + 1) m2)
      (max (nh a) (max (nh b) (nh r) + 1) + 1) m1
  | t => t

/-- Modelled from the spec: `rotateWithRightChild` (single left rotation),
mirror image of `rotL`. -/
def rotR : Tree → Tree
  | .node k1 l (.node k2 rl rr _ m2) _ m1 =>
    Tree.node k2 (Tree.node k1 l rl (max (nh l) (nh rl) + 1) m1) rr
      (max (nh rr) (max (nh l) (nh rl) + 1) + 1) m2
  | t => t

/-- Modelled from the spec: `doubleWithLeftChild` — rotate the left child left,
then the node right (§4.1). -/
def doubleL : Tree → Tree
  | .node k l r h m => rotL (.node k (rotR l) r h m)
  | .nil => .nil

/-- Modelled from the spec: `doubleWithRightChild`, mirror of `doubleL`. -/
def doubleR : Tree → Tree
  | .node k l r h m => rotR (.node k l (rotL r) h m)
  | .nil => .nil

/-- Modelled from the spec: the private `balance(AvlNode *&t)` helper
(`ALLOWED_IMBALANCE = 1`): if the left side is more than one taller, apply a
single or double rotation chosen by comparing the left child's children
(`height(t->left->left) >= height(t->left->right)` picks the single rotation);
mirror for the right side; finally refresh the stored root height. -/
def balanceT : Tree → Tree
  | .nil => .nil
  | .node k l r h m =>
    if nh l - nh r > 1 then
      setHeight (match l with
        | .node _ ll lr _ _ =>
          if nh lr ≤ nh ll then rotL (.node k l r h m) else doubleL (.node k l r h m)
        | .nil => .node k l r h m)
    else if nh r - nh l > 1 then
      setHeight (match r with
        | .node _ rl rr _ _ =>
          if nh rl ≤ nh rr then rotR (.node k l r h m) else doubleR (.node k l r h m)
        | .nil => .node k l r h m)
    else setHeight (.node k l r h m)

/-- Modelled from the spec: the private recursive
`insert(x, documentID, frequency, AvlNode *&t)` absent from the header.  Per
§4.1: descend by ordered comparison; an absent key creates a leaf whose posting
map is `{documentID: frequency}`; a present key accumulates `frequency` into
the existing entry (`wordMap[documentID] += frequency`); rebalance on the way
back up. -/
def insert (x docID : Str) (freq : Int) : Tree → Tree
  | .nil => balanceT (.node x .nil .nil 0 (mapAdd [] docID freq))
  | .node k l r h m =>
    if ltStr x k then balanceT (.node k (insert x docID freq l) r h m)
    else if ltStr k x then balanceT (.node k l (insert x docID freq r) h m)
    else balanceT (.node k l r h (mapAdd m docID freq))

/-- Modelled from the spec: the private recursive `findNode(x, t)` — standard
ordered-comparison descent returning the owning node, or null. -/
def findNode : Tree → Str → Option Tree
  | .nil, _ => none
  | .node k l r h m, x =>
    if ltStr x k then findNode l x
    else if ltStr k x then findNode r x
    else some (.node k l r h m)

/-- Modelled from the spec: the private recursive `contains(x, t)` — the same
descent returning a boolean. -/
def contains : Tree → Str → Bool
  | .nil, _ => false
  | .node k l r _ _, x =>
    if ltStr x k then contains l x
    else if ltStr k x then contains r x
    else true

/-- `AvlTree::getWordMapAtKey`: the found node's `wordMap` by value, or an
empty map when the key is absent (translated from the header). -/
def getWordMapAtKey (t : Tree) (k : Str) : PMap :=
  match findNode t k with
  | some (.node _ _ _ _ m) => m
  | _ => []

/-- In-order association list of the tree: the key/posting mapping it stores. -/
def inorder : Tree → List (Str × PMap)
  | .nil => []
  | .node k l r _ m => inorder l ++ (k, m) :: inorder r

/-- Lookup in an in-order association list. -/
def assocLookup : List (Str × PMap) → Str → Option PMap
  | [], _ => none
  | (a, m) :: rest, k => if a = k then some m else assocLookup rest k

/-- The binary-search-tree ordering invariant, phrased on the in-order list. -/
def orderedB (t : Tree) : Bool := keySortedB (inorder t)

/-- Every stored height field equals the true height. -/
def heightsOkB : Tree → Bool
  | .nil => true
  | .node _ l r h _ => (decide (h = max (rh l) (rh r) + 1)) && heightsOkB l && heightsOkB r

/-- Every node's balance factor (left height minus right height, empty subtree
height `-1`) lies in `{-1, 0, 1}`. -/
def balFacOkB : Tree → Bool
  | .nil => true
  | .node _ l r _ _ =>
    (decide (rh l - rh r ≤ 1)) && (decide (rh r - rh l ≤ 1)) && balFacOkB l && balFacOkB r

/-- Building an index by a sequence of `insert(key, documentId, count)` calls
starting from the empty tree. -/
def buildTree (ops : List (Str × Str × Int)) : Tree :=
  ops.foldl (fun t p => insert p.1 p.2.1 p.2.2 t) Tree.nil

/-- Well-formedness of the stored posting maps: every node's `wordMap` is a
key-sorted, non-empty `std::map` (always true of maps built by `insert`). -/
def pmapsOkB : Tree → Bool
  | .nil => true
  | .node _ l r _ m => keySortedB m && !m.isEmpty && pmapsOkB l && pmapsOkB r

/-! ### The persistence codec (`writeToTextFile` / `readFromTextFile`)

The file is a flat character stream; `writeHelper` (absent from the header) is
modelled from the spec (§4.1/§6): one line per node in in-order key order,
formatted `key:(doc1,count1)(doc2,count2)...`.  The reader below is translated
directly from `AvlTree::readFromTextFile` in the header; `std::stoi` is
modelled by its standard semantics, returning `none` where the C++ call
throws — `std::invalid_argument` when the scanned count text has no leading
integer, `std::out_of_range` when the parsed value does not fit in `int`. -/

/-- ASCII digit test. -/
def isDigitChar (c : Char) : Bool := decide ('0' ≤ c) && decide (c ≤ '9')

/-- C-locale `isspace`. -/
def isSpaceChar (c : Char) : Bool :=
  c = ' ' || c = '\t' || c = '\n' || c = '\x0b' || c = '\x0c' || c = '\r'

/-- The digit-consuming loop of `strtol`: accumulate leading digits. -/
def stoiGo : Str → Nat → Nat
  | [], acc => acc
  | c :: rest, acc =>
    if isDigitChar c then stoiGo rest (acc * 10 + (c.toNat - 48)) else acc

/-- `std::stoi` after whitespace skipping: optional sign, then at least one
digit (parsing stops at the first non-digit); `none` models the thrown
exception — `std::invalid_argument` when no digit follows, `std::out_of_range`
when the digit run's value lies outside the `int` range
`[-2147483648, 2147483647]`. -/
def stoiCore : Str → Option Int
  | [] => none
  | c :: rest =>
    if c = '-' then
      match rest with
      | [] => none
      | c2 :: _ =>
        if isDigitChar c2 then
          if stoiGo rest 0 ≤ 2147483648 then some (-((stoiGo rest 0 : Nat) : Int))
          else none
        else none
    else if c = '+' then
      match rest with
      | [] => none
      | c2 :: _ =>
        if isDigitChar c2 then
          if stoiGo rest 0 ≤ 2147483647 then some ((stoiGo rest 0 : Nat) : Int)
          else none
        else none
    else if isDigitChar c then
      if stoiGo (c :: rest) 0 ≤ 2147483647 then some ((stoiGo (c :: rest) 0 : Nat) : Int)
      else none
    else none

/-- `std::stoi`: skip leading whitespace, then parse sign and digits. -/
def stoiOpt (s : Str) : Option Int := stoiCore (s.dropWhile isSpaceChar)

/-- `s.find(c, pos)` recast on suffixes: the characters strictly before the
first occurrence of `c`, and the suffix strictly after it. -/
def splitFirst (c : Char) : Str → Option (Str × Str)
  | [] => none
  | a :: rest =>
    if a = c then some ([], rest)
    else
      match splitFirst c rest with
      | none => none
      | some (p, q) => some (a :: p, q)

/-- The group-scanning loop of `readFromTextFile` for one line (suffix after
the first colon): repeatedly find `(`, then `,`, then `)`; a missing comma or
closing parenthesis stops this line (diagnostic + `break`); each complete group
is inserted; a count with no leading integer makes `std::stoi` throw, modelled
by the `false` flag (the exception escapes with the inserts so far applied).
The loop is embedded with an explicit iteration bound: every iteration consumes
at least one character of `s`, so a bound of `s.length + 1` is never reached
(`parseGroupsF_fuel` below proves the model independent of any sufficient
bound); the exhausted-bound branch is unreachable. -/
def parseGroupsF (key : Str) : Nat → Str → Tree → Tree × Bool
  | 0, _, t => (t, true)
  | fuel + 1, s, t =>
    match splitFirst '(' s with
    | none => (t, true)
    | some (_, afterOpen) =>
      match splitFirst ',' afterOpen with
      | none => (t, true)
      | some (docID, afterComma) =>
        match splitFirst ')' afterComma with
        | none => (t, true)
        | some (countStr, afterClose) =>
          match stoiOpt countStr with
          | none => (t, false)
          | some c => parseGroupsF key fuel afterClose (insert key docID c t)

/-- The group-scanning loop with its (sufficient) iteration bound. -/
def parseGroups (key : Str) (s : Str) (t : Tree) : Tree × Bool :=
  parseGroupsF key (s.length + 1) s t

/-- One line of `readFromTextFile`: find the first colon (none ⇒ diagnostic and
skip), the prefix is the key, then scan the `(doc,count)` groups. -/
def readLine (line : Str) (t : Tree) : Tree × Bool :=
  match splitFirst ':' line with
  | none => (t, true)
  | some (key, rest) => parseGroups key rest t

/-- The `while (std::getline(...))` loop: process lines until the first line on
which the `std::stoi` exception escapes (everything inserted so far persists in
the tree, which is a member of the caller). -/
def readLines : List Str → Tree → Tree × Bool
  | [], t => (t, true)
  | line :: rest, t =>
    match readLine line t with
    | (t2, true) => readLines rest t2
    | (t2, false) => (t2, false)

/-- `std::getline` splitting of the file character stream: each `\n` ends a
line (and is consumed); a final fragment without `\n` is still a line; a
trailing `\n` does not create an empty final line.  Embedded with an explicit
iteration bound that is never reached (each line consumes at least the
delimiter; `getlinesF_fuel` below proves bound-independence). -/
def getlinesF : Nat → Str → List Str
  | 0, _ => []
  | fuel + 1, s =>
    if s = [] then []
    else
      match splitFirst '\n' s with
      | none => [s]
      | some (l, rest) => l :: getlinesF fuel rest

/-- The `getline` loop with its (sufficient) iteration bound. -/
def getlines (s : Str) : List Str := getlinesF (s.length + 1) s

/-- `AvlTree::readFromTextFile`, translated from the header: split the file
into lines and run the per-line parser; the boolean is `false` exactly when a
`std::stoi` exception escaped the call. -/
def readFromTextFile (file : Str) (t : Tree) : Tree × Bool :=
  readLines (getlines file) t

/-- The character of one decimal digit. -/
def digitChar (d : Nat) : Char :=
  match d with
  | 0 => '0' | 1 => '1' | 2 => '2' | 3 => '3' | 4 => '4'
  | 5 => '5' | 6 => '6' | 7 => '7' | 8 => '8' | _ => '9'

/-- Little-endian base-10 digits, with an explicit (sufficient) iteration
bound so the definition is structurally recursive. -/
def natDigitsF : Nat → Nat → List Nat
  | 0, _ => []
  | fuel + 1, n => if n = 0 then [] else (n % 10) :: natDigitsF fuel (n / 10)

/-- Decimal digit string of a natural number (C++ `operator<<`). -/
def natToStr (n : Nat) : Str :=
  if n = 0 then ['0']
  else (natDigitsF (n + 1) n).reverse.map digitChar

/-- Decimal rendering of a C++ `int` by `operator<<`. -/
def intToStr (i : Int) : Str :=
  if i < 0 then '-' :: natToStr i.natAbs else natToStr i.natAbs

/-- Modelled from the spec: the serialized posting groups of one node,
`(doc1,count1)(doc2,count2)...` in the map's (ascending) stored order. -/
def postingsStr : PMap → Str
  | [] => []
  | (d, c) :: rest => '(' :: (d ++ ',' :: (intToStr c ++ ')' :: postingsStr rest))

/-- Modelled from the spec: one serialized line, `key:` followed by the groups. -/
def nodeLine (k : Str) (m : PMap) : Str := k ++ ':' :: postingsStr m

/-- Modelled from the spec: the private `writeHelper` (absent from the header)
emits one line per node by in-order traversal, ascending by key (§4.1, §6). -/
def writeLines (t : Tree) : List Str := (inorder t).map (fun p => nodeLine p.1 p.2)

/-- `AvlTree::writeToTextFile`: the whole emitted character stream, each line
terminated by `std::endl`. -/
def writeToTextFile (t : Tree) : Str :=
  (writeLines t).foldr (fun l acc => l ++ '\n' :: acc) []

/-- Keys avoid `:`/newline and document ids avoid `,`/newline, so that the
unescaped text codec can represent them faithfully. -/
def treeCharsOkB : Tree → Bool
  | .nil => true
  | .node k l r _ m =>
    k.all (fun c => !(c = ':' || c = '\n')) &&
    m.all (fun p => p.1.all (fun c => !(c = ',' || c = '\n'))) &&
    treeCharsOkB l && treeCharsOkB r

/-- Every stored count lies in the `int` range: the tree's count member has
C++ type `int`, so every state the program can hold satisfies this, and the
decimal rendering of such a count re-parses without `std::out_of_range`. -/
def treeCountsOkB : Tree → Bool
  | .nil => true
  | .node _ l r _ m =>
    m.all (fun p => decide (-2147483648 ≤ p.2) && decide (p.2 ≤ 2147483647)) &&
    treeCountsOkB l && treeCountsOkB r

/-! ### The query engine (`QueryProcessor.h`)

The three index trees are shared context; stemming (`Porter2`, an external
collaborator outside the core per §1) and the loaded stop-word set (read from
disk at runtime) are abstract parameters of the context. -/

/-- The engine's collaborators: the three AVL indexes referenced by the
`QueryProcessor` constructor, the Porter2 `stemWord` function and the loaded
stop-word set (as its membership test on lower-cased words). -/
structure Ctx where
  personTree : Tree
  orgTree : Tree
  wordsTree : Tree
  stem : Str → Str
  stopWords : Str → Bool

/-- The `QueryProcessor` mutable members: `vectorOfMaps`, `vectorOfBadMaps`,
`documentFrequencyPairs` and the pagination cursor `searchIndex`. -/
structure QPState where
  vMaps : List PMap
  vBadMaps : List PMap
  pairs : List (Str × Int)
  searchIndex : Nat
deriving DecidableEq

/-- The freshly constructed engine: all member containers empty, cursor 0. -/
def qp0 : QPState := ⟨[], [], [], 0⟩

/-- C-locale `ispunct` (ASCII punctuation). -/
def isPunctChar (c : Char) : Bool :=
  (decide (33 ≤ c.toNat) && decide (c.toNat ≤ 47)) ||
  (decide (58 ≤ c.toNat) && decide (c.toNat ≤ 64)) ||
  (decide (91 ≤ c.toNat) && decide (c.toNat ≤ 96)) ||
  (decide (123 ≤ c.toNat) && decide (c.toNat ≤ 126))

/-- C-locale `tolower` applied per character (`DocumentParser::toLower`). -/
def toLowerChar (c : Char) : Char :=
  if 65 ≤ c.toNat ∧ c.toNat ≤ 90 then Char.ofNat (c.toNat + 32) else c

/-- `DocumentParser::toLower`. -/
def toLowerStr (s : Str) : Str := s.map toLowerChar

/-- `DocumentParser::tokenizer`: split on single spaces, keeping empty fields
and always emitting the final (possibly empty) field. -/
def tokGo : Str → Str → List Str
  | [], acc => [acc.reverse]
  | c :: rest, acc =>
    if c = ' ' then acc.reverse :: tokGo rest [] else tokGo rest (c :: acc)

/-- `DocumentParser::tokenizer` entry point. -/
def tokenizer (s : Str) : List Str := tokGo s []

/-- `QueryProcessor::removePunctuationExcept`: erase punctuation except the
semantically significant `:` and `-` (the erase loop is an in-place filter). -/
def removePunctuationExcept (w : Str) : Str :=
  w.filter (fun c => !isPunctChar c || c = ':' || c = '-')

/-- `DocumentParser::containsStopWords`: membership of the lower-cased word in
the loaded stop-word set. -/
def containsStopWords (ctx : Ctx) (w : Str) : Bool := ctx.stopWords (toLowerStr w)

/-- Classification of one token by `QueryProcessor::SeperateString`: `ORG:`
prefix → organization lookup (verbatim remainder); `PERSON:` prefix → person
lookup (lower-cased remainder); leading `-` → stemmed exclusion lookup pushed
onto `vectorOfBadMaps`; otherwise a non-stop-word, non-empty token is stemmed
and its word-index posting map pushed onto `vectorOfMaps`. -/
def classifyWord (ctx : Ctx) (s : QPState) (w0 : Str) : QPState :=
  let word := removePunctuationExcept w0
  if word.take 4 = ['O', 'R', 'G', ':'] then
    { s with vMaps := s.vMaps ++ [getWordMapAtKey ctx.orgTree (word.drop 4)] }
  else if word.take 7 = ['P', 'E', 'R', 'S', 'O', 'N', ':'] then
    { s with vMaps :=
        s.vMaps ++ [getWordMapAtKey ctx.personTree (toLowerStr (word.drop 7))] }
  else if word.take 1 = ['-'] then
    { s with vBadMaps :=
        s.vBadMaps ++ [getWordMapAtKey ctx.wordsTree (ctx.stem (word.drop 1))] }
  else if !containsStopWords ctx word && !word.isEmpty then
    { s with vMaps := s.vMaps ++ [getWordMapAtKey ctx.wordsTree (ctx.stem word)] }
  else s

/-- `QueryProcessor::SeperateString`: tokenize and classify every token. -/
def SeperateString (ctx : Ctx) (s : QPState) (search : Str) : QPState :=
  (tokenizer search).foldl (classifyWord ctx) s

/-- The loop body of `QueryProcessor::intersectMaps`: iterate over `map1` in
ascending order; every key also found in `map2` contributes the sum of the two
counts to the result and is erased from `map2`. Returns (result, final map2). -/
def interGo : PMap → PMap → PMap → PMap × PMap
  | [], m2, acc => (acc, m2)
  | (k, v) :: rest, m2, acc =>
    match mapFind m2 k with
    | some w => interGo rest (mapErase m2 k) (mapSet acc k (v + w))
    | none => interGo rest m2 acc

/-- `QueryProcessor::intersectMaps` (the second argument is passed by
non-const reference and is mutated: matched keys are erased from it). -/
def intersectMaps (m1 m2 : PMap) : PMap × PMap := interGo m1 m2 []

/-- The intersection loop of `processQuery`: fold `intersectMaps` over the
remaining positive maps, collecting the mutated stored maps. -/
def interFold : PMap → List PMap → PMap × List PMap
  | r, [] => (r, [])
  | r, m :: rest =>
    let p := intersectMaps r m
    let q := interFold p.1 rest
    (q.1, p.2 :: q.2)

/-- The loop body of `QueryProcessor::excludeMaps`: keep (via `std::map
insert`) exactly the entries whose key is not found in `badMap`. -/
def exGo : PMap → PMap → PMap → PMap
  | [], _, acc => acc
  | (k, v) :: rest, bad, acc =>
    match mapFind bad k with
    | some _ => exGo rest bad acc
    | none => exGo rest bad (mapInsertKeep acc k v)

/-- `QueryProcessor::excludeMaps`. -/
def excludeMaps (m bad : PMap) : PMap := exGo m bad []

/-- `QueryProcessor::processQuery`: classify the terms, return empty if no
positive map was collected, else intersect all positive maps (mutating the
stored copies) and then apply every exclusion map. -/
def processQuery (ctx : Ctx) (s : QPState) (search : Str) : PMap × QPState :=
  let s1 := SeperateString ctx s search
  match s1.vMaps with
  | [] => ([], s1)
  | m :: rest =>
    let p := interFold m rest
    let s2 := { s1 with vMaps := m :: p.2 }
    (s2.vBadMaps.foldl (fun r bad => excludeMaps r bad) p.1, s2)

/-- Insertion step of the ranking sort, using the `std::sort` comparator
`a.second > b.second`. -/
def insertDesc (p : Str × Int) : List (Str × Int) → List (Str × Int)
  | [] => [p]
  | q :: rest => if q.2 < p.2 then p :: q :: rest else q :: insertDesc p rest

/-- `QueryProcessor::sortDocumentsByFrequency`: copy the result map into the
pair vector and sort it descending by frequency.  `std::sort` guarantees only
a sorted permutation (tie order unspecified, per the spec); it is modelled by
an insertion sort realizing one such permutation under the same comparator. -/
def sortPairs (m : PMap) : List (Str × Int) := m.foldr insertDesc []

/-- The emission loop of `outputDocuments`: emit while the suffix is nonempty
and fewer than `n` pairs have been emitted. -/
def outGo : List (Str × Int) → Int → Int → List (Str × Int)
  | [], _, _ => []
  | p :: rest, c, n => if c < n then p :: outGo rest (c + 1) n else []

/-- `QueryProcessor::outputDocuments(numDocuments)`: report "no documents
match" (the boolean) if the cursor is at or past the end; otherwise emit up to
`numDocuments` pairs starting at the cursor and advance the cursor by the
number emitted. -/
def outputDocuments (s : QPState) (numDocuments : Int) :
    List (Str × Int) × QPState × Bool :=
  if s.pairs.length ≤ s.searchIndex then ([], s, true)
  else
    let em := outGo (s.pairs.drop s.searchIndex) 0 numDocuments
    (em, { s with searchIndex := s.searchIndex + em.length }, false)

/-- `QueryProcessor::runQueryProcessor`: clear `documentFrequencyPairs` and
`vectorOfMaps`, reset the cursor — the statement `vectorOfBadMaps;` in the
source is an expression statement with no effect, so `vectorOfBadMaps` is NOT
cleared — then process the query, sort, and output the top 15.  Returns the
final state, the emitted pairs, and the "no documents match" flag. -/
def runQueryProcessor (ctx : Ctx) (s : QPState) (search : Str) :
    QPState × List (Str × Int) × Bool :=
  let s1 : QPState := { s with pairs := [], vMaps := [], searchIndex := 0 }
  let pq := processQuery ctx s1 search
  let s2 : QPState := { pq.2 with pairs := sortPairs pq.1 }
  let od := outputDocuments s2 15
  (od.2.1, od.1, od.2.2)

/-- Update of a sorted association model: add count `c` for document `d` under
key `x` (the in-order effect of one `insert`). -/
def updAssoc : List (Str × PMap) → Str → Str → Int → List (Str × PMap)
  | [], x, d, c => [(x, mapAdd [] d c)]
  | (k, m) :: rest, x, d, c =>
    if ltStr x k then (x, mapAdd [] d c) :: (k, m) :: rest
    else if ltStr k x then (k, m) :: updAssoc rest x d c
    else (k, mapAdd m d c) :: rest

/-- Adjacent pairs are in weakly descending score order. -/
def pairsSortedDescB : List (Str × Int) → Bool
  | [] => true
  | [_] => true
  | p :: q :: rest => decide (q.2 ≤ p.2) && pairsSortedDescB (q :: rest)

/-! ### Concrete instances used by examples and witnesses -/

/-- A word index with postings `bank → {d1:3, d2:1}` and `loan → {d1:2}`
(the spec's exclusion example); stemming is the identity (Porter2 maps both
`bank` and `loan` to themselves) and the stop-word set is empty. -/
def ctx0 : Ctx :=
  { personTree := Tree.nil
    orgTree := Tree.nil
    wordsTree := insert ['l', 'o', 'a', 'n'] ['d', '1'] 2
      (insert ['b', 'a', 'n', 'k'] ['d', '2'] 1
        (insert ['b', 'a', 'n', 'k'] ['d', '1'] 3 Tree.nil))
    stem := fun w => w
    stopWords := fun _ => false }

/-- A word index with postings `bank → {d1:3, d2:1}` and `loan → {d1:2, d3:5}`
(the spec's intersection example). -/
def ctx1 : Ctx :=
  { personTree := Tree.nil
    orgTree := Tree.nil
    wordsTree := insert ['l', 'o', 'a', 'n'] ['d', '3'] 5
      (insert ['l', 'o', 'a', 'n'] ['d', '1'] 2
        (insert ['b', 'a', 'n', 'k'] ['d', '2'] 1
          (insert ['b', 'a', 'n', 'k'] ['d', '1'] 3 Tree.nil)))
    stem := fun w => w
    stopWords := fun _ => false }

/-- An engine state holding 20 ranked pairs with scores 20 down to 1, cursor 0. -/
def st20 : QPState :=
  ⟨[], [], (List.range 20).map (fun i => (['x'], (20 : Int) - i)), 0⟩

/-! ### Order lemmas for `ltStr` -/

theorem ltStr_irrefl (s : Str) : ltStr s s = false := by
  induction s with
  | nil => rfl
  | cons a t ih => simp [ltStr, ih]

theorem ltStr_trans {a b c : Str} (h1 : ltStr a b = true) (h2 : ltStr b c = true) :
    ltStr a c = true := by
  induction a generalizing b c with
  | nil =>
    cases b with
    | nil => exact absurd h1 (by rw [ltStr_irrefl]; exact Bool.noConfusion)
    | cons y bs => cases c with
      | nil => exact Bool.noConfusion h2
      | cons z cs => rfl
  | cons x as ih =>
    cases b with
    | nil => exact Bool.noConfusion h1
    | cons y bs =>
      cases c with
      | nil => exact Bool.noConfusion h2
      | cons z cs =>
        simp only [ltStr] at h1 h2 ⊢
        rcases lt_trichotomy x y with hxy | hxy | hxy
        · rcases lt_trichotomy y z with hyz | hyz | hyz
          · rw [if_pos (lt_trans hxy hyz)]
          · subst hyz
            rw [if_pos hxy]
          · rw [if_neg (asymm hyz), if_pos hyz] at h2
            exact Bool.noConfusion h2
        · subst hxy
          rcases lt_trichotomy x z with hxz | hxz | hxz
          · rw [if_pos hxz]
          · subst hxz
            rw [if_neg (lt_irrefl x), if_neg (lt_irrefl x)] at h1 h2 ⊢
            exact ih h1 h2
          · rw [if_neg (asymm hxz), if_pos hxz] at h2
            exact Bool.noConfusion h2
        · rw [if_neg (asymm hxy), if_pos hxy] at h1
          exact Bool.noConfusion h1

theorem eq_of_not_ltStr {a b : Str} (h1 : ltStr a b = false) (h2 : ltStr b a = false) :
    a = b := by
  induction a generalizing b with
  | nil =>
    cases b with
    | nil => rfl
    | cons y bs => exact Bool.noConfusion h1
  | cons x as ih =>
    cases b with
    | nil => exact Bool.noConfusion h2
    | cons y bs =>
      simp only [ltStr] at h1 h2
      rcases lt_trichotomy x y with hxy | hxy | hxy
      · rw [if_pos hxy] at h1
        exact Bool.noConfusion h1
      · subst hxy
        rw [if_neg (lt_irrefl x), if_neg (lt_irrefl x)] at h1 h2
        exact congrArg (x :: ·) (ih h1 h2)
      · rw [if_pos hxy] at h2
        exact Bool.noConfusion h2

theorem ltStr_asymm {a b : Str} (h : ltStr a b = true) : ltStr b a = false := by
  by_contra hc
  have hba : ltStr b a = true := by
    cases hq : ltStr b a with
    | false => exact absurd hq hc
    | true => rfl
  have : ltStr a a = true := ltStr_trans h hba
  rw [ltStr_irrefl] at this
  exact Bool.noConfusion this

theorem ne_of_ltStr {a b : Str} (h : ltStr a b = true) : a ≠ b := by
  intro he
  subst he
  rw [ltStr_irrefl] at h
  exact Bool.noConfusion h

/-! ### Sorted association lists -/

theorem keySortedB_cons_tail {α : Type} {a : Str} {x : α} {l : List (Str × α)}
    (h : keySortedB ((a, x) :: l) = true) : keySortedB l = true := by
  cases l with
  | nil => rfl
  | cons p rest =>
    cases p with
    | mk b y =>
      simp only [keySortedB, Bool.and_eq_true] at h
      exact h.2

theorem keySortedB_cons_head {α : Type} {a : Str} {x : α} {l : List (Str × α)}
    (h : keySortedB ((a, x) :: l) = true) : ∀ p ∈ l, ltStr a p.1 = true := by
  induction l generalizing a x with
  | nil => intro p hp; cases hp
  | cons q rest ih =>
    intro p hp
    cases q with
    | mk b y =>
      simp only [keySortedB, Bool.and_eq_true] at h
      cases hp with
      | head => exact h.1
      | tail _ hp2 => exact ltStr_trans h.1 (ih h.2 p hp2)

theorem keySortedB_cons_of {α : Type} {a : Str} {x : α} {l : List (Str × α)}
    (h1 : keySortedB l = true) (h2 : ∀ p ∈ l, ltStr a p.1 = true) :
    keySortedB ((a, x) :: l) = true := by
  cases l with
  | nil => rfl
  | cons q rest =>
    cases q with
    | mk b y =>
      simp only [keySortedB, Bool.and_eq_true]
      exact ⟨h2 (b, y) (by simp), h1⟩

theorem keySortedB_append {α : Type} {l1 l2 : List (Str × α)} {k : Str} {m : α}
    (h : keySortedB (l1 ++ (k, m) :: l2) = true) :
    keySortedB l1 = true ∧ keySortedB l2 = true ∧
    (∀ p ∈ l1, ltStr p.1 k = true) ∧ (∀ p ∈ l2, ltStr k p.1 = true) := by
  induction l1 with
  | nil =>
    simp only [List.nil_append] at h
    exact ⟨rfl, keySortedB_cons_tail h, fun p hp => absurd hp (List.not_mem_nil p),
      keySortedB_cons_head h⟩
  | cons q rest ih =>
    cases q with
    | mk b y =>
      have htail : keySortedB (rest ++ (k, m) :: l2) = true := keySortedB_cons_tail h
      have hhd := keySortedB_cons_head h
      obtain ⟨s1, s2, b1, b2⟩ := ih htail
      refine ⟨?_, s2, ?_, b2⟩
      · exact keySortedB_cons_of s1 (fun p hp => hhd p (List.mem_append_left _ hp))
      · intro p hp
        cases hp with
        | head => exact hhd (k, m) (by simp)
        | tail _ hp2 => exact b1 p hp2

theorem assocLookup_append {l1 l2 : List (Str × PMap)} {k : Str} :
    assocLookup (l1 ++ l2) k =
      match assocLookup l1 k with
      | some m => some m
      | none => assocLookup l2 k := by
  induction l1 with
  | nil => simp [assocLookup]
  | cons p rest ih =>
    cases p with
    | mk a m =>
      simp only [List.cons_append, assocLookup]
      by_cases ha : a = k
      · rw [if_pos ha, if_pos ha]
      · rw [if_neg ha, if_neg ha]
        exact ih

theorem assocLookup_none_of_gt {l : List (Str × PMap)} {k : Str}
    (h : ∀ p ∈ l, ltStr k p.1 = true) : assocLookup l k = none := by
  induction l with
  | nil => rfl
  | cons p rest ih =>
    cases p with
    | mk a m =>
      simp only [assocLookup]
      rw [if_neg (fun he => (ne_of_ltStr (h (a, m) (by simp))) he.symm)]
      exact ih (fun p hp => h p (by simp [hp]))

theorem assocLookup_none_of_lt {l : List (Str × PMap)} {k : Str}
    (h : ∀ p ∈ l, ltStr p.1 k = true) : assocLookup l k = none := by
  induction l with
  | nil => rfl
  | cons p rest ih =>
    cases p with
    | mk a m =>
      simp only [assocLookup]
      rw [if_neg (ne_of_ltStr (h (a, m) (by simp)))]
      exact ih (fun p hp => h p (by simp [hp]))

theorem mapFind_none_of_gt {l : PMap} {k : Str}
    (h : ∀ p ∈ l, ltStr k p.1 = true) : mapFind l k = none := by
  induction l with
  | nil => rfl
  | cons p rest ih =>
    cases p with
    | mk a v =>
      simp only [mapFind]
      rw [if_neg (fun he => (ne_of_ltStr (h (a, v) (by simp))) he.symm)]
      exact ih (fun p hp => h p (by simp [hp]))

theorem mapFind_none_of_lt {l : PMap} {k : Str}
    (h : ∀ p ∈ l, ltStr p.1 k = true) : mapFind l k = none := by
  induction l with
  | nil => rfl
  | cons p rest ih =>
    cases p with
    | mk a v =>
      simp only [mapFind]
      rw [if_neg (ne_of_ltStr (h (a, v) (by simp)))]
      exact ih (fun p hp => h p (by simp [hp]))

/-! ### The AVL balance invariant -/

theorem heightsOkB_node {k : Str} {l r : Tree} {h : Int} {m : PMap} :
    heightsOkB (Tree.node k l r h m) = true ↔
      h = max (rh l) (rh r) + 1 ∧ heightsOkB l = true ∧ heightsOkB r = true := by
  simp [heightsOkB, Bool.and_eq_true, and_assoc]

theorem balFacOkB_node {k : Str} {l r : Tree} {h : Int} {m : PMap} :
    balFacOkB (Tree.node k l r h m) = true ↔
      rh l - rh r ≤ 1 ∧ rh r - rh l ≤ 1 ∧ balFacOkB l = true ∧ balFacOkB r = true := by
  simp [balFacOkB, Bool.and_eq_true, and_assoc]

theorem nh_eq_rh {t : Tree} (h : heightsOkB t = true) : nh t = rh t := by
  cases t with
  | nil => rfl
  | node k l r hh m =>
    rw [heightsOkB_node] at h
    simp [nh, rh, h.1]

theorem rh_ge_neg_one (t : Tree) : -1 ≤ rh t := by
  induction t with
  | nil => simp [rh]
  | node k l r h m ihl ihr => simp only [rh]; omega

/-- Effect of `balance` on a node whose two subtrees satisfy the AVL invariants
and whose imbalance is at most 2: the invariants hold for the result, the
resulting height is `max (rh l) (rh r)` or one more, and exactly one more when
no rotation fires. -/
theorem balanceT_spec (k : Str) (l r : Tree) (h : Int) (m : PMap)
    (hl1 : heightsOkB l = true) (hl2 : balFacOkB l = true)
    (hr1 : heightsOkB r = true) (hr2 : balFacOkB r = true)
    (hd1 : rh l - rh r ≤ 2) (hd2 : rh r - rh l ≤ 2) :
    heightsOkB (balanceT (.node k l r h m)) = true ∧
    balFacOkB (balanceT (.node k l r h m)) = true ∧
    max (rh l) (rh r) ≤ rh (balanceT (.node k l r h m)) ∧
    rh (balanceT (.node k l r h m)) ≤ max (rh l) (rh r) + 1 ∧
    (rh l - rh r ≤ 1 → rh r - rh l ≤ 1 →
      rh (balanceT (.node k l r h m)) = max (rh l) (rh r) + 1) := by
  have hnl := nh_eq_rh hl1
  have hnr := nh_eq_rh hr1
  by_cases c1 : nh l - nh r > 1
  · have hll2 : rh l - rh r = 2 := by omega
    cases l with
    | nil =>
      exfalso
      have := rh_ge_neg_one r
      simp [rh] at hll2
      omega
    | node kl ll lr hl ml =>
      rw [heightsOkB_node] at hl1
      obtain ⟨hhl, hll1, hlr1⟩ := hl1
      rw [balFacOkB_node] at hl2
      obtain ⟨hbf1, hbf2, hllb, hlrb⟩ := hl2
      have hnll := nh_eq_rh hll1
      have hnlr := nh_eq_rh hlr1
      simp only [balanceT, if_pos c1]
      by_cases c2 : nh lr ≤ nh ll
      · -- single right rotation
        rw [if_pos c2]
        simp only [rotL, setHeight, nh, rh] at *
        rw [heightsOkB_node, heightsOkB_node, balFacOkB_node, balFacOkB_node]
        simp only [rh, nh]
        refine ⟨⟨?_, hll1, ?_, hlr1, hr1⟩, ⟨?_, ?_, hllb, ?_, ?_, hlrb, hr2⟩, ?_, ?_, ?_⟩
          <;> omega
      · -- double rotation
        rw [if_neg c2]
        cases lr with
        | nil =>
          exfalso
          rw [hnll] at c2
          have h0 : nh Tree.nil = -1 := rfl
          rw [h0] at c2
          have := rh_ge_neg_one ll
          omega
        | node kq p q hq mq =>
          rw [heightsOkB_node] at hlr1
          obtain ⟨hhq, hp1, hq1⟩ := hlr1
          rw [balFacOkB_node] at hlrb
          obtain ⟨hpqb1, hpqb2, hpb, hqb⟩ := hlrb
          have hnp := nh_eq_rh hp1
          have hnq := nh_eq_rh hq1
          simp only [doubleL, rotR, rotL, setHeight, nh, rh] at *
          rw [heightsOkB_node, heightsOkB_node, heightsOkB_node,
            balFacOkB_node, balFacOkB_node, balFacOkB_node]
          simp only [rh, nh]
          refine ⟨⟨?_, ⟨?_, hll1, hp1⟩, ?_, hq1, hr1⟩,
            ⟨?_, ?_, ⟨?_, ?_, hllb, hpb⟩, ?_, ?_, hqb, hr2⟩, ?_, ?_, ?_⟩
            <;> omega
  · by_cases c2 : nh r - nh l > 1
    · have hrr2 : rh r - rh l = 2 := by omega
      cases r with
      | nil =>
        exfalso
        have := rh_ge_neg_one l
        simp [rh] at hrr2
        omega
      | node kr rl rr hr mr =>
        rw [heightsOkB_node] at hr1
        obtain ⟨hhr, hrl1, hrr1⟩ := hr1
        rw [balFacOkB_node] at hr2
        obtain ⟨hbf1, hbf2, hrlb, hrrb⟩ := hr2
        have hnrl := nh_eq_rh hrl1
        have hnrr := nh_eq_rh hrr1
        simp only [balanceT, if_neg c1, if_pos c2]
        by_cases c3 : nh rl ≤ nh rr
        · -- single left rotation
          rw [if_pos c3]
          simp only [rotR, setHeight, nh, rh] at *
          rw [heightsOkB_node, heightsOkB_node, balFacOkB_node, balFacOkB_node]
          simp only [rh, nh]
          refine ⟨⟨?_, ⟨?_, hl1, hrl1⟩, hrr1⟩, ⟨?_, ?_, ⟨?_, ?_, hl2, hrlb⟩, hrrb⟩,
            ?_, ?_, ?_⟩ <;> omega
        · -- double rotation
          rw [if_neg c3]
          cases rl with
          | nil =>
            exfalso
            rw [hnrr] at c3
            have h0 : nh Tree.nil = -1 := rfl
            rw [h0] at c3
            have := rh_ge_neg_one rr
            omega
          | node kq p q hq mq =>
            rw [heightsOkB_node] at hrl1
            obtain ⟨hhq, hp1, hq1⟩ := hrl1
            rw [balFacOkB_node] at hrlb
            obtain ⟨hpqb1, hpqb2, hpb, hqb⟩ := hrlb
            have hnp := nh_eq_rh hp1
            have hnq := nh_eq_rh hq1
            simp only [doubleR, rotL, rotR, setHeight, nh, rh] at *
            rw [heightsOkB_node, heightsOkB_node, heightsOkB_node,
              balFacOkB_node, balFacOkB_node, balFacOkB_node]
            simp only [rh, nh]
            refine ⟨⟨?_, ⟨?_, hl1, hp1⟩, ?_, hq1, hrr1⟩,
              ⟨?_, ?_, ⟨?_, ?_, hl2, hpb⟩, ?_, ?_, hqb, hrrb⟩, ?_, ?_, ?_⟩
              <;> omega
    · simp only [balanceT, if_neg c1, if_neg c2, setHeight]
      rw [heightsOkB_node, balFacOkB_node]
      simp only [rh]
      refine ⟨⟨?_, hl1, hr1⟩, ⟨?_, ?_, hl2, hr2⟩, ?_, ?_, ?_⟩
      · omega
      · omega
      · omega
      · omega
      · omega
      · exact fun _ _ => trivial

/-- Insertion preserves the AVL invariants and grows the height by at most one. -/
theorem insert_avl (x d : Str) (c : Int) (t : Tree)
    (h1 : heightsOkB t = true) (h2 : balFacOkB t = true) :
    heightsOkB (insert x d c t) = true ∧ balFacOkB (insert x d c t) = true ∧
    rh t ≤ rh (insert x d c t) ∧ rh (insert x d c t) ≤ rh t + 1 := by
  induction t with
  | nil =>
    have hs := balanceT_spec x Tree.nil Tree.nil 0 (mapAdd [] d c) rfl rfl rfl rfl
      (by simp [rh]) (by simp [rh])
    obtain ⟨hs1, hs2, hs3, hs4, hs5⟩ := hs
    have heq := hs5 (by simp [rh]) (by simp [rh])
    simp only [insert]
    refine ⟨hs1, hs2, ?_, ?_⟩ <;> simp only [rh] at * <;> omega
  | node k l r h m ihl ihr =>
    rw [heightsOkB_node] at h1
    obtain ⟨hh, hl1, hr1⟩ := h1
    rw [balFacOkB_node] at h2
    obtain ⟨hb1, hb2, hl2, hr2⟩ := h2
    simp only [insert]
    by_cases hc1 : ltStr x k
    · rw [if_pos hc1]
      obtain ⟨ih1, ih2, ih3, ih4⟩ := ihl hl1 hl2
      obtain ⟨hs1, hs2, hs3, hs4, hs5⟩ :=
        balanceT_spec k (insert x d c l) r h m ih1 ih2 hr1 hr2 (by omega) (by omega)
      refine ⟨hs1, hs2, ?_, ?_⟩ <;> simp only [rh] <;> omega
    · rw [if_neg hc1]
      by_cases hc2 : ltStr k x
      · rw [if_pos hc2]
        obtain ⟨ih1, ih2, ih3, ih4⟩ := ihr hr1 hr2
        obtain ⟨hs1, hs2, hs3, hs4, hs5⟩ :=
          balanceT_spec k l (insert x d c r) h m hl1 hl2 ih1 ih2 (by omega) (by omega)
        refine ⟨hs1, hs2, ?_, ?_⟩ <;> simp only [rh] <;> omega
      · rw [if_neg hc2]
        obtain ⟨hs1, hs2, hs3, hs4, hs5⟩ :=
          balanceT_spec k l r h (mapAdd m d c) hl1 hl2 hr1 hr2 (by omega) (by omega)
        refine ⟨hs1, hs2, ?_, ?_⟩ <;> simp only [rh] <;> omega

/-- Folding any batch of insertions over an AVL-invariant tree preserves both
invariants. -/
theorem foldl_insert_avl (ops : List (Str × Str × Int)) (t : Tree)
    (h1 : heightsOkB t = true) (h2 : balFacOkB t = true) :
    heightsOkB (ops.foldl (fun t p => insert p.1 p.2.1 p.2.2 t) t) = true ∧
    balFacOkB (ops.foldl (fun t p => insert p.1 p.2.1 p.2.2 t) t) = true := by
  induction ops generalizing t with
  | nil => exact ⟨h1, h2⟩
  | cons p rest ih =>
    have hstep := insert_avl p.1 p.2.1 p.2.2 t h1 h2
    simpa using ih (insert p.1 p.2.1 p.2.2 t) hstep.1 hstep.2.1

/-! ### The in-order model of the tree -/

theorem inorder_setHeight (t : Tree) : inorder (setHeight t) = inorder t := by
  cases t <;> rfl

theorem inorder_rotL (t : Tree) : inorder (rotL t) = inorder t := by
  cases t with
  | nil => rfl
  | node k l r h m =>
    cases l with
    | nil => rfl
    | node k1 a b h1 m1 => simp [rotL, inorder, List.append_assoc]

theorem inorder_rotR (t : Tree) : inorder (rotR t) = inorder t := by
  cases t with
  | nil => rfl
  | node k l r h m =>
    cases r with
    | nil => rfl
    | node k2 rl rr h2 m2 => simp [rotR, inorder, List.append_assoc]

theorem inorder_doubleL (t : Tree) : inorder (doubleL t) = inorder t := by
  cases t with
  | nil => rfl
  | node k l r h m => simp [doubleL, inorder_rotL, inorder, inorder_rotR]

theorem inorder_doubleR (t : Tree) : inorder (doubleR t) = inorder t := by
  cases t with
  | nil => rfl
  | node k l r h m => simp [doubleR, inorder_rotR, inorder, inorder_rotL]

theorem inorder_balanceT (t : Tree) : inorder (balanceT t) = inorder t := by
  cases t with
  | nil => rfl
  | node k l r h m =>
    simp only [balanceT]
    split
    · rw [inorder_setHeight]
      split
      · split
        · rw [inorder_rotL]
        · rw [inorder_doubleL]
      · rfl
    · split
      · rw [inorder_setHeight]
        split
        · split
          · rw [inorder_rotR]
          · rw [inorder_doubleR]
        · rfl
      · rw [inorder_setHeight]

/-- Correctness of `getWordMapAtKey` and `contains` against the in-order
association model, on ordered trees. -/
theorem lookup_inorder (t : Tree) (k : Str) (ho : orderedB t = true) :
    getWordMapAtKey t k = (assocLookup (inorder t) k).getD [] ∧
    contains t k = (assocLookup (inorder t) k).isSome := by
  induction t with
  | nil => exact ⟨rfl, rfl⟩
  | node K l r h m ihl ihr =>
    have ho2 : keySortedB (inorder l ++ (K, m) :: inorder r) = true := ho
    obtain ⟨sl, sr, bl, br⟩ := keySortedB_append ho2
    simp only [inorder]
    rw [assocLookup_append]
    by_cases h1 : ltStr k K
    · have hL : getWordMapAtKey (Tree.node K l r h m) k = getWordMapAtKey l k := by
        simp [getWordMapAtKey, findNode, if_pos h1]
      have hC : contains (Tree.node K l r h m) k = contains l k := by
        simp [contains, if_pos h1]
      rw [hL, hC, (ihl sl).1, (ihl sl).2]
      cases hc : assocLookup (inorder l) k with
      | some m2 => simp
      | none =>
        have hKk : ¬ K = k := fun he => ne_of_ltStr h1 he.symm
        have hr0 : assocLookup (inorder r) k = none :=
          assocLookup_none_of_gt (fun p hp => ltStr_trans h1 (br p hp))
        simp [assocLookup, hKk, hr0]
    · by_cases h2 : ltStr K k
      · have hL : getWordMapAtKey (Tree.node K l r h m) k = getWordMapAtKey r k := by
          simp [getWordMapAtKey, findNode, if_neg h1, if_pos h2]
        have hC : contains (Tree.node K l r h m) k = contains r k := by
          simp [contains, if_neg h1, if_pos h2]
        rw [hL, hC, (ihr sr).1, (ihr sr).2]
        have hl0 : assocLookup (inorder l) k = none :=
          assocLookup_none_of_lt (fun p hp => ltStr_trans (bl p hp) h2)
        have hKk : ¬ K = k := ne_of_ltStr h2
        simp [hl0, assocLookup, hKk]
      · have e1 : ltStr k K = false := by revert h1; cases ltStr k K <;> simp
        have e2 : ltStr K k = false := by revert h2; cases ltStr K k <;> simp
        have hx : k = K := eq_of_not_ltStr e1 e2
        subst hx
        have hl0 : assocLookup (inorder l) k = none :=
          assocLookup_none_of_lt (fun p hp => bl p hp)
        have hL : getWordMapAtKey (Tree.node k l r h m) k = m := by
          simp [getWordMapAtKey, findNode, e1]
        have hC : contains (Tree.node k l r h m) k = true := by
          simp [contains, e1]
        rw [hL, hC, hl0]
        simp [assocLookup]

/-! ### Effect of `insert` on the in-order model -/

theorem updAssoc_append_lt {l1 l2 : List (Str × PMap)} {K : Str} {M : PMap}
    {x d : Str} {c : Int} (h : ltStr x K = true) :
    updAssoc (l1 ++ (K, M) :: l2) x d c = updAssoc l1 x d c ++ (K, M) :: l2 := by
  induction l1 with
  | nil => simp [updAssoc, if_pos h]
  | cons p rest ih =>
    cases p with
    | mk a m =>
      simp only [List.cons_append, updAssoc]
      by_cases h1 : ltStr x a
      · rw [if_pos h1, if_pos h1]
        simp
      · rw [if_neg h1, if_neg h1]
        by_cases h2 : ltStr a x
        · rw [if_pos h2, if_pos h2]
          simp [ih]
        · rw [if_neg h2, if_neg h2]
          simp

theorem updAssoc_append_gt {l1 l2 : List (Str × PMap)} {K : Str} {M : PMap}
    {x d : Str} {c : Int} (hK : ltStr K x = true)
    (h : ∀ p ∈ l1, ltStr p.1 x = true) :
    updAssoc (l1 ++ (K, M) :: l2) x d c = l1 ++ (K, M) :: updAssoc l2 x d c := by
  induction l1 with
  | nil =>
    simp only [List.nil_append, updAssoc]
    rw [if_neg (by simp [ltStr_asymm hK]), if_pos hK]
  | cons p rest ih =>
    cases p with
    | mk a m =>
      have ha : ltStr a x = true := h (a, m) (by simp)
      simp only [List.cons_append, List.append_eq, updAssoc]
      rw [if_neg (by simp [ltStr_asymm ha]), if_pos ha,
        ih (fun p hp => h p (by simp [hp]))]

theorem updAssoc_append_eq {l1 l2 : List (Str × PMap)} {M : PMap}
    {x d : Str} {c : Int} (h : ∀ p ∈ l1, ltStr p.1 x = true) :
    updAssoc (l1 ++ (x, M) :: l2) x d c = l1 ++ (x, mapAdd M d c) :: l2 := by
  induction l1 with
  | nil =>
    simp only [List.nil_append, updAssoc]
    rw [if_neg (by simp [ltStr_irrefl]), if_neg (by simp [ltStr_irrefl])]
  | cons p rest ih =>
    cases p with
    | mk a m =>
      have ha : ltStr a x = true := h (a, m) (by simp)
      simp only [List.cons_append, List.append_eq, updAssoc]
      rw [if_neg (by simp [ltStr_asymm ha]), if_pos ha,
        ih (fun p hp => h p (by simp [hp]))]

theorem insert_inorder (t : Tree) (x d : Str) (c : Int) (ho : orderedB t = true) :
    inorder (insert x d c t) = updAssoc (inorder t) x d c := by
  induction t with
  | nil => simp [insert, inorder_balanceT, inorder, updAssoc]
  | node K l r h m ihl ihr =>
    have ho2 : keySortedB (inorder l ++ (K, m) :: inorder r) = true := ho
    obtain ⟨sl, sr, bl, br⟩ := keySortedB_append ho2
    simp only [insert]
    by_cases h1 : ltStr x K
    · rw [if_pos h1, inorder_balanceT]
      simp only [inorder]
      rw [ihl sl, updAssoc_append_lt h1]
    · rw [if_neg h1]
      by_cases h2 : ltStr K x
      · rw [if_pos h2, inorder_balanceT]
        simp only [inorder]
        rw [ihr sr, updAssoc_append_gt h2 (fun p hp => ltStr_trans (bl p hp) h2)]
      · have e1 : ltStr x K = false := by revert h1; cases ltStr x K <;> simp
        have e2 : ltStr K x = false := by revert h2; cases ltStr K x <;> simp
        have hx : x = K := eq_of_not_ltStr e1 e2
        subst hx
        rw [if_neg h2, inorder_balanceT]
        simp only [inorder]
        rw [updAssoc_append_eq bl]

theorem updAssoc_keys {A : List (Str × PMap)} {x d : Str} {c : Int} :
    ∀ p ∈ updAssoc A x d c, p.1 = x ∨ ∃ q ∈ A, p.1 = q.1 := by
  induction A with
  | nil =>
    intro p hp
    simp only [updAssoc] at hp
    cases hp with
    | head => exact Or.inl rfl
    | tail _ hp2 => cases hp2
  | cons q0 rest ih =>
    intro p hp
    cases q0 with
    | mk k m =>
      simp only [updAssoc] at hp
      by_cases h1 : ltStr x k
      · rw [if_pos h1] at hp
        cases hp with
        | head => exact Or.inl rfl
        | tail _ hp2 => exact Or.inr ⟨p, hp2, rfl⟩
      · rw [if_neg h1] at hp
        by_cases h2 : ltStr k x
        · rw [if_pos h2] at hp
          cases hp with
          | head => exact Or.inr ⟨(k, m), by simp, rfl⟩
          | tail _ hp2 =>
            cases ih p hp2 with
            | inl he => exact Or.inl he
            | inr he =>
              obtain ⟨q, hq, he⟩ := he
              exact Or.inr ⟨q, by simp [hq], he⟩
        · rw [if_neg h2] at hp
          cases hp with
          | head => exact Or.inr ⟨(k, m), by simp, rfl⟩
          | tail _ hp2 => exact Or.inr ⟨p, List.mem_cons_of_mem _ hp2, rfl⟩

theorem updAssoc_sorted {A : List (Str × PMap)} {x d : Str} {c : Int}
    (h : keySortedB A = true) : keySortedB (updAssoc A x d c) = true := by
  induction A with
  | nil => rfl
  | cons q0 rest ih =>
    cases q0 with
    | mk k m =>
      have st := keySortedB_cons_tail h
      have sh := keySortedB_cons_head h
      simp only [updAssoc]
      by_cases h1 : ltStr x k
      · rw [if_pos h1]
        refine keySortedB_cons_of h ?_
        intro p hp
        cases hp with
        | head => exact h1
        | tail _ hp2 => exact ltStr_trans h1 (sh p hp2)
      · rw [if_neg h1]
        by_cases h2 : ltStr k x
        · rw [if_pos h2]
          refine keySortedB_cons_of (ih st) ?_
          intro p hp
          cases updAssoc_keys p hp with
          | inl he => rw [he]; exact h2
          | inr he =>
            obtain ⟨q, hq, he⟩ := he
            rw [he]
            exact sh q hq
        · rw [if_neg h2]
          exact keySortedB_cons_of st sh

theorem insert_ordered (t : Tree) (x d : Str) (c : Int) (ho : orderedB t = true) :
    orderedB (insert x d c t) = true := by
  show keySortedB (inorder (insert x d c t)) = true
  rw [insert_inorder t x d c ho]
  exact updAssoc_sorted ho

theorem assocLookup_updAssoc_self {A : List (Str × PMap)} {x d : Str} {c : Int}
    (h : keySortedB A = true) :
    assocLookup (updAssoc A x d c) x =
      some (mapAdd ((assocLookup A x).getD []) d c) := by
  induction A with
  | nil => simp [updAssoc, assocLookup]
  | cons q0 rest ih =>
    cases q0 with
    | mk k m =>
      have st := keySortedB_cons_tail h
      have sh := keySortedB_cons_head h
      simp only [updAssoc]
      by_cases h1 : ltStr x k
      · rw [if_pos h1]
        have hk : ¬ k = x := fun he => ne_of_ltStr h1 he.symm
        have hr : assocLookup rest x = none :=
          assocLookup_none_of_gt (fun p hp => ltStr_trans h1 (sh p hp))
        simp [assocLookup, hk, hr]
      · rw [if_neg h1]
        by_cases h2 : ltStr k x
        · rw [if_pos h2]
          have hk : ¬ k = x := ne_of_ltStr h2
          simp [assocLookup, hk, ih st]
        · have e1 : ltStr x k = false := by revert h1; cases ltStr x k <;> simp
          have e2 : ltStr k x = false := by revert h2; cases ltStr k x <;> simp
          have hx : k = x := eq_of_not_ltStr e2 e1
          subst hx
          rw [if_neg h2]
          simp [assocLookup]

theorem mapFind_cons_decomp {a d : Str} {v : Int} {rest : PMap}
    (h : mapFind ((a, v) :: rest) d = none) :
    ¬ a = d ∧ mapFind rest d = none := by
  simp only [mapFind] at h
  by_cases ha : a = d
  · rw [if_pos ha] at h
    exact absurd h (by simp)
  · rw [if_neg ha] at h
    exact ⟨ha, h⟩

theorem mapFind_mapAdd_of_none {m : PMap} {d : Str} {c : Int}
    (h : mapFind m d = none) : mapFind (mapAdd m d c) d = some c := by
  induction m with
  | nil => simp [mapAdd, mapFind]
  | cons p rest ih =>
    cases p with
    | mk a v =>
      obtain ⟨ha, hrest⟩ := mapFind_cons_decomp h
      simp only [mapAdd]
      by_cases h1 : ltStr d a
      · rw [if_pos h1]
        simp [mapFind]
      · rw [if_neg h1]
        by_cases h2 : ltStr a d
        · rw [if_pos h2]
          simp only [mapFind]
          rw [if_neg ha]
          exact ih hrest
        · exfalso
          have e1 : ltStr d a = false := by revert h1; cases ltStr d a <;> simp
          have e2 : ltStr a d = false := by revert h2; cases ltStr a d <;> simp
          exact ha (eq_of_not_ltStr e2 e1)

theorem mapFind_mapAdd_twice {m : PMap} {d : Str} {c1 c2 : Int}
    (h : mapFind m d = none) :
    mapFind (mapAdd (mapAdd m d c1) d c2) d = some (c1 + c2) := by
  induction m with
  | nil => simp [mapAdd, ltStr_irrefl, mapFind]
  | cons p rest ih =>
    cases p with
    | mk a v =>
      obtain ⟨ha, hrest⟩ := mapFind_cons_decomp h
      simp only [mapAdd]
      by_cases h1 : ltStr d a
      · rw [if_pos h1]
        simp only [mapAdd, ltStr_irrefl]
        simp [mapFind]
      · rw [if_neg h1]
        by_cases h2 : ltStr a d
        · rw [if_pos h2]
          simp only [mapAdd]
          rw [if_neg (by simp [ltStr_asymm h2]), if_pos h2]
          simp only [mapFind]
          rw [if_neg ha]
          exact ih hrest
        · exfalso
          have e1 : ltStr d a = false := by revert h1; cases ltStr d a <;> simp
          have e2 : ltStr a d = false := by revert h2; cases ltStr a d <;> simp
          exact ha (eq_of_not_ltStr e2 e1)

/-- The posting map stored under `x` after `insert x d c` is the old map with
`c` accumulated onto document `d`. -/
theorem getWordMap_insert_self (t : Tree) (x d : Str) (c : Int)
    (ho : orderedB t = true) :
    getWordMapAtKey (insert x d c t) x = mapAdd (getWordMapAtKey t x) d c := by
  have h1 := (lookup_inorder (insert x d c t) x (insert_ordered t x d c ho)).1
  rw [h1, insert_inorder t x d c ho, assocLookup_updAssoc_self ho]
  rw [(lookup_inorder t x ho).1]
  rfl

/-! ### Claim theorems (AVL index) -/

/-- Claim C5: for every sequence of `insert` operations starting from an empty
`AvlTree`, after each insert completes every node in the tree has balance
factor (height of left subtree minus height of right subtree, empty subtree
height `-1`) in `{-1, 0, 1}`.  Quantifying over all operation lists covers
every intermediate tree of any insertion sequence. -/
theorem claim_C5_balance_invariant (ops : List (Str × Str × Int)) :
    balFacOkB (buildTree ops) = true :=
  (foldl_insert_avl ops Tree.nil rfl rfl).2

/-- Claim C4: on an ordered tree where document `d` is not yet present under
key `k`, `insert (k, d, c1)` followed by `insert (k, d, c2)` leaves the
PostingMap at `k` mapping `d` to `c1 + c2` (counts accumulate), and a single
`insert (k, d, c1)` creates the entry with value exactly `c1`. -/
theorem claim_C4_posting_accumulation (t : Tree) (k d : Str) (c1 c2 : Int)
    (ho : orderedB t = true)
    (hd : mapFind (getWordMapAtKey t k) d = none) :
    mapFind (getWordMapAtKey (insert k d c2 (insert k d c1 t)) k) d =
      some (c1 + c2) ∧
    mapFind (getWordMapAtKey (insert k d c1 t) k) d = some c1 := by
  have e1 := getWordMap_insert_self t k d c1 ho
  have ho1 := insert_ordered t k d c1 ho
  have e2 := getWordMap_insert_self (insert k d c1 t) k d c2 ho1
  constructor
  · rw [e2, e1]
    exact mapFind_mapAdd_twice hd
  · rw [e1]
    exact mapFind_mapAdd_of_none hd

/-- Witness for C4 at a concrete input: the tree holding `test → {doc: 7}`,
key `k`, document `d`, counts 2 then 3, giving 5. -/
theorem claim_C4_posting_accumulation_witness :
    orderedB (insert ['t'] ['a'] 7 Tree.nil) = true ∧
    mapFind (getWordMapAtKey (insert ['t'] ['a'] 7 Tree.nil) ['k']) ['d'] = none ∧
    mapFind (getWordMapAtKey
      (insert ['k'] ['d'] 3 (insert ['k'] ['d'] 2 (insert ['t'] ['a'] 7 Tree.nil)))
      ['k']) ['d'] = some (2 + 3) :=
  ⟨by decide, by decide,
    (claim_C4_posting_accumulation (insert ['t'] ['a'] 7 Tree.nil)
      ['k'] ['d'] 2 3 (by decide) (by decide)).1⟩

/-- Claim C9: looking a key up with `getWordMapAtKey` returns exactly the
stored posting map when the key is present (`contains` true), and the empty
map — not an error — when the key is absent (`contains` false). -/
theorem claim_C9_lookup_empty (t : Tree) (k : Str) (ho : orderedB t = true) :
    (assocLookup (inorder t) k = none →
      getWordMapAtKey t k = [] ∧ contains t k = false) ∧
    (∀ w, assocLookup (inorder t) k = some w →
      getWordMapAtKey t k = w ∧ contains t k = true) := by
  obtain ⟨h1, h2⟩ := lookup_inorder t k ho
  constructor
  · intro hn
    rw [h1, h2, hn]
    exact ⟨rfl, rfl⟩
  · intro w hw
    rw [h1, h2, hw]
    exact ⟨rfl, rfl⟩

/-- Witness for C9: the `bank`/`loan` word index and the absent key `z`. -/
theorem claim_C9_lookup_empty_witness :
    orderedB ctx0.wordsTree = true ∧
    assocLookup (inorder ctx0.wordsTree) ['z'] = none ∧
    (getWordMapAtKey ctx0.wordsTree ['z'] = [] ∧
      contains ctx0.wordsTree ['z'] = false) :=
  ⟨by decide, by decide,
    (claim_C9_lookup_empty ctx0.wordsTree ['z'] (by decide)).1 (by decide)⟩

/-! ### Decimal round trip for counts -/

theorem digit_props (d : Nat) (h : d < 10) :
    isDigitChar (digitChar d) = true ∧ ¬ digitChar d = '-' ∧ ¬ digitChar d = '+' ∧
    isSpaceChar (digitChar d) = false ∧ ¬ digitChar d = ')' ∧ ¬ digitChar d = ',' ∧
    ¬ digitChar d = '\n' ∧ ¬ digitChar d = '(' ∧ ¬ digitChar d = ':' ∧
    (digitChar d).toNat - 48 = d := by
  interval_cases d <;> exact (by decide)

/-- The fueled digit extraction agrees with `Nat.digits` once the bound is
sufficient. -/
theorem natDigitsF_eq : ∀ (fuel n : Nat), n < fuel → natDigitsF fuel n = Nat.digits 10 n := by
  intro fuel
  induction fuel with
  | zero =>
    intro n h
    omega
  | succ f ih =>
    intro n h
    by_cases h0 : n = 0
    · subst h0
      simp [natDigitsF]
    · have hpos : 0 < n := Nat.pos_of_ne_zero h0
      have hdiv : n / 10 < n := Nat.div_lt_self hpos (by norm_num)
      simp only [natDigitsF, if_neg h0]
      rw [ih (n / 10) (by omega), Nat.digits_def' (b := 10) (by norm_num) hpos]

/-- `natToStr` is a nonempty list of decimal digit characters. -/
theorem natToStr_form (n : Nat) :
    ∃ ds : List Nat, natToStr n = ds.map digitChar ∧ ds ≠ [] ∧ ∀ d ∈ ds, d < 10 := by
  by_cases h0 : n = 0
  · subst h0
    exact ⟨[0], rfl, by simp, by simp⟩
  · refine ⟨(Nat.digits 10 n).reverse, ?_, ?_, ?_⟩
    · simp [natToStr, h0, natDigitsF_eq (n + 1) n (by omega)]
    · simp [Nat.digits_ne_nil_iff_ne_zero.mpr h0]
    · intro d hd
      exact Nat.digits_lt_base (by norm_num) (List.mem_reverse.mp hd)

theorem stoiGo_digits (ds : List Nat) (a : Nat) (h : ∀ d ∈ ds, d < 10) :
    stoiGo (ds.map digitChar) a = ds.foldl (fun acc d => acc * 10 + d) a := by
  induction ds generalizing a with
  | nil => rfl
  | cons d rest ih =>
    have hd := digit_props d (h d (by simp))
    simp only [List.map_cons, stoiGo, List.foldl_cons]
    rw [if_pos hd.1, hd.2.2.2.2.2.2.2.2.2]
    exact ih _ (fun q hq => h q (by simp [hq]))

theorem foldl_digits_reverse (ds : List Nat) (a : Nat) :
    ds.reverse.foldl (fun acc d => acc * 10 + d) a =
      a * 10 ^ ds.length + Nat.ofDigits 10 ds := by
  induction ds generalizing a with
  | nil => simp [Nat.ofDigits]
  | cons d rest ih =>
    simp only [List.reverse_cons, List.foldl_append, List.foldl_cons, List.foldl_nil,
      List.length_cons, Nat.ofDigits_cons, ih]
    rw [pow_succ]
    ring

theorem stoiGo_natToStr (n : Nat) : stoiGo (natToStr n) 0 = n := by
  by_cases h0 : n = 0
  · subst h0
    decide
  · have : natToStr n = (Nat.digits 10 n).reverse.map digitChar := by
      simp [natToStr, h0, natDigitsF_eq (n + 1) n (by omega)]
    rw [this, stoiGo_digits _ 0
      (fun d hd => Nat.digits_lt_base (by norm_num) (List.mem_reverse.mp hd)),
      foldl_digits_reverse]
    simp [Nat.ofDigits_digits]

theorem dropWhile_not_head {p : Char → Bool} {c : Char} {rest : Str}
    (h : p c = false) : (c :: rest).dropWhile p = c :: rest := by
  simp [List.dropWhile, h]

theorem stoiCore_natToStr (n : Nat) (hn : n ≤ 2147483647) :
    stoiCore (natToStr n) = some (n : Int) := by
  obtain ⟨ds, he, hne, hlt⟩ := natToStr_form n
  obtain ⟨d0, drest, hds⟩ := List.exists_cons_of_ne_nil hne
  have hform : natToStr n = digitChar d0 :: drest.map digitChar := by
    rw [he, hds]
    rfl
  have hp := digit_props d0 (hlt d0 (by rw [hds]; simp))
  rw [hform]
  simp only [stoiCore]
  rw [if_neg hp.2.1, if_neg hp.2.2.1, if_pos hp.1, ← hform, stoiGo_natToStr,
    if_pos hn]

theorem stoiCore_neg_natToStr (n : Nat) (hn : n ≤ 2147483648) :
    stoiCore ('-' :: natToStr n) = some (-(n : Int)) := by
  obtain ⟨ds, he, hne, hlt⟩ := natToStr_form n
  obtain ⟨d0, drest, hds⟩ := List.exists_cons_of_ne_nil hne
  have hform : natToStr n = digitChar d0 :: drest.map digitChar := by
    rw [he, hds]
    rfl
  have hp := digit_props d0 (hlt d0 (by rw [hds]; simp))
  rw [hform]
  simp only [stoiCore]
  rw [if_pos trivial, if_pos hp.1, ← hform, stoiGo_natToStr, if_pos hn]

theorem natToStr_head_not_space (n : Nat) :
    (natToStr n).dropWhile isSpaceChar = natToStr n := by
  obtain ⟨ds, he, hne, hlt⟩ := natToStr_form n
  obtain ⟨d0, drest, hds⟩ := List.exists_cons_of_ne_nil hne
  have hform : natToStr n = digitChar d0 :: drest.map digitChar := by
    rw [he, hds]
    rfl
  have hp := digit_props d0 (hlt d0 (by rw [hds]; simp))
  rw [hform]
  exact dropWhile_not_head hp.2.2.2.1

/-- `std::stoi` parses back exactly what `operator<<` printed, for every value
of the count's C++ type `int` (outside that range the printed text would make
the re-parse throw `std::out_of_range` — but an `int` cannot hold one). -/
theorem stoiOpt_intToStr (i : Int) (hlo : -2147483648 ≤ i)
    (hhi : i ≤ 2147483647) : stoiOpt (intToStr i) = some i := by
  by_cases hneg : i < 0
  · have h1 : intToStr i = '-' :: natToStr i.natAbs := by simp [intToStr, hneg]
    rw [stoiOpt, h1, dropWhile_not_head (by decide),
      stoiCore_neg_natToStr i.natAbs (by omega)]
    congr 1
    omega
  · have h1 : intToStr i = natToStr i.natAbs := by simp [intToStr, hneg]
    rw [stoiOpt, h1, natToStr_head_not_space, stoiCore_natToStr i.natAbs (by omega)]
    congr 1
    omega

/-! ### The scanner: `splitFirst` and loop bounds -/

theorem splitFirst_length {c : Char} {u p q : Str} (h : splitFirst c u = some (p, q)) :
    q.length < u.length ∧ u = p ++ c :: q := by
  induction u generalizing p q with
  | nil => exact absurd h (by simp [splitFirst])
  | cons a rest ih =>
    simp only [splitFirst] at h
    by_cases ha : a = c
    · rw [if_pos ha] at h
      cases h
      subst ha
      exact ⟨by simp, rfl⟩
    · rw [if_neg ha] at h
      cases hr : splitFirst c rest with
      | none =>
        rw [hr] at h
        exact absurd h (by simp)
      | some pq =>
        obtain ⟨p1, q1⟩ := pq
        rw [hr] at h
        simp only [Option.some.injEq, Prod.mk.injEq] at h
        obtain ⟨hp, hq⟩ := h
        obtain ⟨hl, he⟩ := ih hr
        subst hp
        subst hq
        constructor
        · simp
          omega
        · rw [he]
          rfl

theorem splitFirst_cons_self (c : Char) (xs : Str) :
    splitFirst c (c :: xs) = some ([], xs) := by
  simp [splitFirst]

theorem splitFirst_append_ne {p : Str} {c : Char} (q : Str)
    (h : ∀ a ∈ p, ¬ a = c) : splitFirst c (p ++ c :: q) = some (p, q) := by
  induction p with
  | nil => simp [splitFirst]
  | cons a rest ih =>
    simp only [List.cons_append, List.append_eq, splitFirst]
    rw [if_neg (h a (by simp)), ih (fun b hb => h b (by simp [hb]))]

/-- The iteration bound of the group scanner is irrelevant once sufficient:
the loop always terminates by consuming the string. -/
theorem parseGroupsF_fuel (key : Str) :
    ∀ (f1 f2 : Nat) (s : Str) (t : Tree), s.length < f1 → s.length < f2 →
      parseGroupsF key f1 s t = parseGroupsF key f2 s t := by
  intro f1
  induction f1 with
  | zero =>
    intro f2 s t h1 h2
    omega
  | succ f ih =>
    intro f2 s t h1 h2
    cases f2 with
    | zero => omega
    | succ g =>
      cases hs1 : splitFirst '(' s with
      | none => simp only [parseGroupsF, hs1]
      | some pq1 =>
        obtain ⟨x, afterOpen⟩ := pq1
        cases hs2 : splitFirst ',' afterOpen with
        | none => simp only [parseGroupsF, hs1, hs2]
        | some pq2 =>
          obtain ⟨docID, afterComma⟩ := pq2
          cases hs3 : splitFirst ')' afterComma with
          | none => simp only [parseGroupsF, hs1, hs2, hs3]
          | some pq3 =>
            obtain ⟨countStr, afterClose⟩ := pq3
            cases hs4 : stoiOpt countStr with
            | none => simp only [parseGroupsF, hs1, hs2, hs3, hs4]
            | some c =>
              simp only [parseGroupsF, hs1, hs2, hs3, hs4]
              have l1 := (splitFirst_length hs1).1
              have l2 := (splitFirst_length hs2).1
              have l3 := (splitFirst_length hs3).1
              exact ih g afterClose (insert key docID c t) (by omega) (by omega)

/-! ### The writer's output parses back -/

theorem intToStr_mem {i : Int} {a : Char} (h : a ∈ intToStr i) :
    ¬ a = ')' ∧ ¬ a = ',' ∧ ¬ a = '\n' ∧ ¬ a = '(' ∧ ¬ a = ':' := by
  obtain ⟨ds, he, hne, hlt⟩ := natToStr_form i.natAbs
  have hmem : a = '-' ∨ a ∈ natToStr i.natAbs := by
    by_cases hneg : i < 0
    · have h2 : intToStr i = '-' :: natToStr i.natAbs := by simp [intToStr, hneg]
      rw [h2] at h
      cases h with
      | head => exact Or.inl rfl
      | tail _ h3 => exact Or.inr h3
    · have h2 : intToStr i = natToStr i.natAbs := by simp [intToStr, hneg]
      rw [h2] at h
      exact Or.inr h
  cases hmem with
  | inl he2 =>
    subst he2
    exact (by decide)
  | inr he2 =>
    rw [he] at he2
    obtain ⟨d, hd, he3⟩ := List.mem_map.mp he2
    subst he3
    have hp := digit_props d (hlt d hd)
    exact ⟨hp.2.2.2.2.1, hp.2.2.2.2.2.1, hp.2.2.2.2.2.2.1, hp.2.2.2.2.2.2.2.1,
      hp.2.2.2.2.2.2.2.2.1⟩

theorem postingsStr_mem {m : PMap} {a : Char} (h : a ∈ postingsStr m) :
    a = '(' ∨ a = ')' ∨ a = ',' ∨ (∃ p ∈ m, a ∈ p.1) ∨ (∃ p ∈ m, a ∈ intToStr p.2) := by
  induction m with
  | nil => cases h
  | cons p rest ih =>
    obtain ⟨d, c⟩ := p
    simp only [postingsStr, List.mem_cons, List.mem_append] at h
    rcases h with h | h
    · exact Or.inl h
    rcases h with h | h
    · exact Or.inr (Or.inr (Or.inr (Or.inl ⟨(d, c), by simp, h⟩)))
    rcases h with h | h
    · exact Or.inr (Or.inr (Or.inl h))
    rcases h with h | h
    · exact Or.inr (Or.inr (Or.inr (Or.inr ⟨(d, c), by simp, h⟩)))
    rcases h with h | h
    · exact Or.inr (Or.inl h)
    · rcases ih h with h2 | h2 | h2 | h2 | h2
      · exact Or.inl h2
      · exact Or.inr (Or.inl h2)
      · exact Or.inr (Or.inr (Or.inl h2))
      · obtain ⟨q, hq, ha⟩ := h2
        exact Or.inr (Or.inr (Or.inr (Or.inl ⟨q, by simp [hq], ha⟩)))
      · obtain ⟨q, hq, ha⟩ := h2
        exact Or.inr (Or.inr (Or.inr (Or.inr ⟨q, by simp [hq], ha⟩)))

/-- Character facts about one node: given the character restrictions of the
tree, its serialized line contains no newline. -/
theorem nodeLine_no_newline {k : Str} {m : PMap}
    (hk : ∀ a ∈ k, ¬ a = ':' ∧ ¬ a = '\n')
    (hm : ∀ q ∈ m, ∀ a ∈ q.1, ¬ a = ',' ∧ ¬ a = '\n') :
    ∀ a ∈ nodeLine k m, ¬ a = '\n' := by
  intro a ha
  simp only [nodeLine, List.mem_append, List.mem_cons] at ha
  rcases ha with ha | ha
  · exact (hk a ha).2
  rcases ha with ha | ha
  · subst ha
    decide
  · rcases postingsStr_mem ha with h2 | h2 | h2 | h2 | h2
    · subst h2; decide
    · subst h2; decide
    · subst h2; decide
    · obtain ⟨q, hq, h3⟩ := h2
      exact (hm q hq a h3).2
    · obtain ⟨q, hq, h3⟩ := h2
      exact (intToStr_mem h3).2.2.1

theorem treeChars_inorder {t : Tree} (hc : treeCharsOkB t = true) :
    ∀ p ∈ inorder t, (∀ a ∈ p.1, ¬ a = ':' ∧ ¬ a = '\n') ∧
      (∀ q ∈ p.2, ∀ a ∈ q.1, ¬ a = ',' ∧ ¬ a = '\n') := by
  induction t with
  | nil => intro p hp; cases hp
  | node k l r h m ihl ihr =>
    simp only [treeCharsOkB, Bool.and_eq_true] at hc
    obtain ⟨⟨⟨hck, hcm⟩, hcl⟩, hcr⟩ := hc
    intro p hp
    simp only [inorder, List.mem_append, List.mem_cons] at hp
    rcases hp with hp | hp | hp
    · exact ihl hcl p hp
    · subst hp
      constructor
      · intro a ha
        have h2 := List.all_eq_true.mp hck a ha
        simp at h2
        exact ⟨h2.1, h2.2⟩
      · intro q hq a ha
        have h1 := List.all_eq_true.mp hcm q hq
        have h2 := List.all_eq_true.mp h1 a ha
        simp at h2
        exact ⟨h2.1, h2.2⟩
    · exact ihr hcr p hp

theorem treeCounts_inorder {t : Tree} (hc : treeCountsOkB t = true) :
    ∀ p ∈ inorder t, ∀ q ∈ p.2, -2147483648 ≤ q.2 ∧ q.2 ≤ 2147483647 := by
  induction t with
  | nil => intro p hp; cases hp
  | node k l r h m ihl ihr =>
    simp only [treeCountsOkB, Bool.and_eq_true] at hc
    obtain ⟨⟨hcm, hcl⟩, hcr⟩ := hc
    intro p hp
    simp only [inorder, List.mem_append, List.mem_cons] at hp
    rcases hp with hp | hp | hp
    · exact ihl hcl p hp
    · subst hp
      intro q hq
      have h2 := List.all_eq_true.mp hcm q hq
      simp at h2
      exact h2
    · exact ihr hcr p hp

/-- The iteration bound of the `getline` loop is likewise irrelevant. -/
theorem getlinesF_fuel :
    ∀ (f1 f2 : Nat) (s : Str), s.length < f1 → s.length < f2 →
      getlinesF f1 s = getlinesF f2 s := by
  intro f1
  induction f1 with
  | zero =>
    intro f2 s h1 h2
    omega
  | succ f ih =>
    intro f2 s h1 h2
    cases f2 with
    | zero => omega
    | succ g =>
      by_cases hs : s = []
      · simp only [getlinesF, if_pos hs]
      · cases hs1 : splitFirst '\n' s with
        | none => simp only [getlinesF, if_neg hs, hs1]
        | some pq =>
          obtain ⟨l, rest⟩ := pq
          have lr := (splitFirst_length hs1).1
          simp only [getlinesF, if_neg hs, hs1]
          rw [ih g rest (by omega) (by omega)]

/-- Splitting the emitted stream back into lines recovers the emitted lines,
as long as no line contains a newline itself. -/
theorem getlines_flatten (ls : List Str)
    (h : ∀ l ∈ ls, ∀ a ∈ l, ¬ a = '\n') :
    getlines (ls.foldr (fun l acc => l ++ '\n' :: acc) []) = ls := by
  induction ls with
  | nil => rfl
  | cons l rest ih =>
    set F := rest.foldr (fun l acc => l ++ '\n' :: acc) [] with hF
    have hs : ¬ (l ++ '\n' :: F) = [] := by simp
    have hsp : splitFirst '\n' (l ++ '\n' :: F) = some (l, F) :=
      splitFirst_append_ne _ (h l (by simp))
    have hlen : F.length < (l ++ '\n' :: F).length := by
      rw [List.length_append, List.length_cons]
      omega
    show getlinesF ((l ++ '\n' :: F).length + 1) (l ++ '\n' :: F) = l :: rest
    simp only [getlinesF, if_neg hs, hsp]
    rw [getlinesF_fuel ((l ++ '\n' :: F).length) (F.length + 1) F hlen (by omega)]
    rw [show getlinesF (F.length + 1) F = getlines F from rfl]
    rw [ih (fun l2 hl2 => h l2 (by simp [hl2]))]

/-- The group scanner, run on one serialized posting list, performs exactly the
per-group inserts and completes (no `stoi` throw, no malformed group). -/
theorem parseGroupsF_postingsStr (m : PMap) :
    ∀ (fuel : Nat) (key : Str) (t : Tree), (postingsStr m).length < fuel →
      (∀ p ∈ m, ∀ a ∈ p.1, ¬ a = ',') →
      (∀ p ∈ m, -2147483648 ≤ p.2 ∧ p.2 ≤ 2147483647) →
      parseGroupsF key fuel (postingsStr m) t =
        (m.foldl (fun t2 p => insert key p.1 p.2 t2) t, true) := by
  induction m with
  | nil =>
    intro fuel key t hf hm hr
    cases fuel with
    | zero => omega
    | succ f =>
      simp [parseGroupsF, splitFirst]
  | cons p rest ih =>
    intro fuel key t hf hm hr
    obtain ⟨d, c⟩ := p
    cases fuel with
    | zero => omega
    | succ f =>
      have hs1 : splitFirst '(' (postingsStr ((d, c) :: rest)) =
          some ([], d ++ ',' :: (intToStr c ++ ')' :: postingsStr rest)) :=
        splitFirst_cons_self _ _
      have hs2 : splitFirst ',' (d ++ ',' :: (intToStr c ++ ')' :: postingsStr rest)) =
          some (d, intToStr c ++ ')' :: postingsStr rest) :=
        splitFirst_append_ne _ (hm (d, c) (by simp))
      have hs3 : splitFirst ')' (intToStr c ++ ')' :: postingsStr rest) =
          some (intToStr c, postingsStr rest) :=
        splitFirst_append_ne _ (fun a ha => (intToStr_mem ha).1)
      have hs4 := stoiOpt_intToStr c (hr (d, c) (by simp)).1 (hr (d, c) (by simp)).2
      simp only [parseGroupsF, hs1, hs2, hs3, hs4]
      have hlen : (postingsStr ((d, c) :: rest)).length =
          (postingsStr rest).length + d.length + (intToStr c).length + 3 := by
        simp [postingsStr]
        omega
      rw [ih f key (insert key d c t) (by omega)
        (fun q hq => hm q (by simp [hq])) (fun q hq => hr q (by simp [hq]))]
      simp

theorem parseGroups_postingsStr (m : PMap) (key : Str) (t : Tree)
    (hm : ∀ p ∈ m, ∀ a ∈ p.1, ¬ a = ',')
    (hr : ∀ p ∈ m, -2147483648 ≤ p.2 ∧ p.2 ≤ 2147483647) :
    parseGroups key (postingsStr m) t =
      (m.foldl (fun t2 p => insert key p.1 p.2 t2) t, true) :=
  parseGroupsF_postingsStr m _ key t (by omega) hm hr

/-- One serialized line reads back as exactly its per-posting inserts. -/
theorem readLine_nodeLine {k : Str} {m : PMap} {t : Tree}
    (hk : ∀ a ∈ k, ¬ a = ':')
    (hm : ∀ p ∈ m, ∀ a ∈ p.1, ¬ a = ',')
    (hr : ∀ p ∈ m, -2147483648 ≤ p.2 ∧ p.2 ≤ 2147483647) :
    readLine (nodeLine k m) t =
      (m.foldl (fun t2 p => insert k p.1 p.2 t2) t, true) := by
  have hsp : splitFirst ':' (k ++ ':' :: postingsStr m) = some (k, postingsStr m) :=
    splitFirst_append_ne _ hk
  simp only [readLine, nodeLine, hsp]
  exact parseGroups_postingsStr m k t hm hr

/-- Reading every serialized line performs all inserts, in line order. -/
theorem readLines_writeLines (A : List (Str × PMap)) :
    ∀ (t : Tree),
      (∀ p ∈ A, (∀ a ∈ p.1, ¬ a = ':') ∧ (∀ q ∈ p.2, ∀ a ∈ q.1, ¬ a = ',') ∧
        (∀ q ∈ p.2, -2147483648 ≤ q.2 ∧ q.2 ≤ 2147483647)) →
      readLines (A.map (fun p => nodeLine p.1 p.2)) t =
        (A.foldl (fun t2 p => p.2.foldl (fun t3 q => insert p.1 q.1 q.2 t3) t2) t,
          true) := by
  induction A with
  | nil =>
    intro t hA
    rfl
  | cons p rest ih =>
    intro t hA
    obtain ⟨k, m⟩ := p
    have hline := readLine_nodeLine (t := t) (hA (k, m) (by simp)).1
      (hA (k, m) (by simp)).2.1 (hA (k, m) (by simp)).2.2
    simp only [List.map_cons, readLines, hline]
    exact ih _ (fun q hq => hA q (by simp [hq]))

/-! ### Reloading reproduces the original key/posting mapping -/

theorem fold_docs_model (ps : PMap) (k : Str) :
    ∀ t : Tree, orderedB t = true →
      orderedB (ps.foldl (fun t3 q => insert k q.1 q.2 t3) t) = true ∧
      inorder (ps.foldl (fun t3 q => insert k q.1 q.2 t3) t) =
        ps.foldl (fun B q => updAssoc B k q.1 q.2) (inorder t) := by
  induction ps with
  | nil => exact fun t ho => ⟨ho, rfl⟩
  | cons q rest ih =>
    intro t ho
    simp only [List.foldl_cons]
    obtain ⟨o2, e2⟩ := ih (insert k q.1 q.2 t) (insert_ordered t k q.1 q.2 ho)
    exact ⟨o2, by rw [e2, insert_inorder t k q.1 q.2 ho]⟩

theorem fold_nodes_model (A : List (Str × PMap)) :
    ∀ t : Tree, orderedB t = true →
      orderedB (A.foldl
        (fun t2 p => p.2.foldl (fun t3 q => insert p.1 q.1 q.2 t3) t2) t) = true ∧
      inorder (A.foldl
        (fun t2 p => p.2.foldl (fun t3 q => insert p.1 q.1 q.2 t3) t2) t) =
        A.foldl (fun B p => p.2.foldl (fun B2 q => updAssoc B2 p.1 q.1 q.2) B)
          (inorder t) := by
  induction A with
  | nil => exact fun t ho => ⟨ho, rfl⟩
  | cons p rest ih =>
    intro t ho
    simp only [List.foldl_cons]
    obtain ⟨o1, e1⟩ := fold_docs_model p.2 p.1 t ho
    obtain ⟨o2, e2⟩ := ih _ o1
    exact ⟨o2, by rw [e2, e1]⟩

theorem mapAdd_append_last {qs : PMap} {d : Str} {c : Int}
    (h : ∀ p ∈ qs, ltStr p.1 d = true) : mapAdd qs d c = qs ++ [(d, c)] := by
  induction qs with
  | nil => rfl
  | cons p rest ih =>
    obtain ⟨a, v⟩ := p
    have ha : ltStr a d = true := h (a, v) (by simp)
    simp only [mapAdd]
    rw [if_neg (by simp [ltStr_asymm ha]), if_pos ha,
      ih (fun q hq => h q (by simp [hq]))]
    rfl

theorem updAssoc_new_last {A0 : List (Str × PMap)} {k d : Str} {c : Int}
    (h : ∀ p ∈ A0, ltStr p.1 k = true) :
    updAssoc A0 k d c = A0 ++ [(k, [(d, c)])] := by
  induction A0 with
  | nil => rfl
  | cons p rest ih =>
    obtain ⟨a, m⟩ := p
    have ha : ltStr a k = true := h (a, m) (by simp)
    simp only [updAssoc]
    rw [if_neg (by simp [ltStr_asymm ha]), if_pos ha,
      ih (fun q hq => h q (by simp [hq]))]
    rfl

theorem fold_docs_assoc (ps : PMap) :
    ∀ (A0 : List (Str × PMap)) (k : Str) (qs : PMap),
      (∀ p ∈ A0, ltStr p.1 k = true) → keySortedB (qs ++ ps) = true →
      ps.foldl (fun B q => updAssoc B k q.1 q.2) (A0 ++ [(k, qs)]) =
        A0 ++ [(k, qs ++ ps)] := by
  induction ps with
  | nil =>
    intro A0 k qs hb hsrt
    simp
  | cons q rest ih =>
    intro A0 k qs hb hsrt
    obtain ⟨d, c⟩ := q
    obtain ⟨s1, s2, b1, b2⟩ := keySortedB_append hsrt
    simp only [List.foldl_cons]
    rw [show A0 ++ [(k, qs)] = A0 ++ (k, qs) :: [] from rfl, updAssoc_append_eq hb]
    rw [show A0 ++ (k, mapAdd qs d c) :: [] = A0 ++ [(k, mapAdd qs d c)] from rfl]
    rw [mapAdd_append_last b1]
    have hsrt2 : keySortedB ((qs ++ [(d, c)]) ++ rest) = true := by
      rw [List.append_assoc]
      exact hsrt
    rw [ih A0 k (qs ++ [(d, c)]) hb hsrt2, List.append_assoc]
    rfl

theorem fold_nodes_assoc (A : List (Str × PMap)) :
    ∀ A0 : List (Str × PMap), keySortedB (A0 ++ A) = true →
      (∀ p ∈ A, keySortedB p.2 = true ∧ p.2 ≠ []) →
      A.foldl (fun B p => p.2.foldl (fun B2 q => updAssoc B2 p.1 q.1 q.2) B) A0 =
        A0 ++ A := by
  induction A with
  | nil =>
    intro A0 hs hA
    simp
  | cons p rest ih =>
    intro A0 hs hA
    obtain ⟨k, m⟩ := p
    obtain ⟨s1, s2, b1, b2⟩ := keySortedB_append hs
    obtain ⟨hm1, hm2⟩ := hA (k, m) (by simp)
    obtain ⟨q0, ms, hm⟩ := List.exists_cons_of_ne_nil hm2
    have hm0 : m = q0 :: ms := hm
    have hm1b : keySortedB m = true := hm1
    simp only [List.foldl_cons]
    have step1 : m.foldl (fun B2 q => updAssoc B2 k q.1 q.2) A0 = A0 ++ [(k, m)] := by
      rw [hm0, List.foldl_cons, updAssoc_new_last b1]
      have hsrt2 : keySortedB ([(q0.1, q0.2)] ++ ms) = true := by
        rw [show ([(q0.1, q0.2)] ++ ms : PMap) = q0 :: ms from by simp]
        rw [← hm0]
        exact hm1b
      have := fold_docs_assoc ms A0 k [(q0.1, q0.2)] b1 hsrt2
      rw [show ((q0.1, q0.2) : Str × Int) = q0 from rfl] at this
      rw [this]
      simp
    rw [step1]
    have hs2 : keySortedB ((A0 ++ [(k, m)]) ++ rest) = true := by
      rw [List.append_assoc]
      simpa using hs
    rw [ih (A0 ++ [(k, m)]) hs2 (fun q hq => hA q (by simp [hq]))]
    simp

theorem pmapsOk_inorder {t : Tree} (h : pmapsOkB t = true) :
    ∀ p ∈ inorder t, keySortedB p.2 = true ∧ p.2 ≠ [] := by
  induction t with
  | nil => intro p hp; cases hp
  | node k l r hh m ihl ihr =>
    simp only [pmapsOkB, Bool.and_eq_true] at h
    obtain ⟨⟨⟨h1, h2⟩, h3⟩, h4⟩ := h
    intro p hp
    simp only [inorder, List.mem_append, List.mem_cons] at hp
    rcases hp with hp | hp | hp
    · exact ihl h3 p hp
    · subst hp
      refine ⟨h1, ?_⟩
      intro he
      have he2 : m = [] := he
      rw [he2] at h2
      simp at h2
    · exact ihr h4 p hp

/-! ### `readFromTextFile` only ever inserts (partial-index safety) -/

/-- Whatever the line content, the group scanner only performs inserts under
its key: the result tree is the input tree extended by the groups parsed
before any stop or failure point. -/
theorem parseGroupsF_only_inserts (key : Str) :
    ∀ (fuel : Nat) (s : Str) (t : Tree), ∃ ops : List (Str × Int),
      (parseGroupsF key fuel s t).1 =
        ops.foldl (fun t2 q => insert key q.1 q.2 t2) t := by
  intro fuel
  induction fuel with
  | zero => exact fun s t => ⟨[], rfl⟩
  | succ f ih =>
    intro s t
    cases h1 : splitFirst '(' s with
    | none => exact ⟨[], by simp [parseGroupsF, h1]⟩
    | some pq1 =>
      obtain ⟨pre, afterOpen⟩ := pq1
      cases h2 : splitFirst ',' afterOpen with
      | none => exact ⟨[], by simp [parseGroupsF, h1, h2]⟩
      | some pq2 =>
        obtain ⟨d, afterComma⟩ := pq2
        cases h3 : splitFirst ')' afterComma with
        | none => exact ⟨[], by simp [parseGroupsF, h1, h2, h3]⟩
        | some pq3 =>
          obtain ⟨cs, afterClose⟩ := pq3
          cases h4 : stoiOpt cs with
          | none => exact ⟨[], by simp [parseGroupsF, h1, h2, h3, h4]⟩
          | some c =>
            obtain ⟨ops, ho⟩ := ih afterClose (insert key d c t)
            refine ⟨(d, c) :: ops, ?_⟩
            simp only [parseGroupsF, h1, h2, h3, h4, List.foldl_cons]
            exact ho

/-- One line of `readFromTextFile` only ever inserts. -/
theorem readLine_only_inserts (line : Str) (t : Tree) :
    ∃ ops : List (Str × Str × Int),
      (readLine line t).1 =
        ops.foldl (fun t2 q => insert q.1 q.2.1 q.2.2 t2) t := by
  cases h1 : splitFirst ':' line with
  | none => exact ⟨[], by simp [readLine, h1]⟩
  | some pq =>
    obtain ⟨key, rest⟩ := pq
    obtain ⟨ops, ho⟩ := parseGroupsF_only_inserts key (rest.length + 1) rest t
    refine ⟨ops.map (fun q => (key, q.1, q.2)), ?_⟩
    simp only [readLine, h1, parseGroups]
    rw [ho, List.foldl_map]

/-- The whole read loop only ever inserts: the resulting tree is the input
tree plus some sequence of per-group inserts, whatever the file content. -/
theorem readLines_only_inserts (lines : List Str) :
    ∀ t : Tree, ∃ ops : List (Str × Str × Int),
      (readLines lines t).1 =
        ops.foldl (fun t2 q => insert q.1 q.2.1 q.2.2 t2) t := by
  induction lines with
  | nil => exact fun t => ⟨[], rfl⟩
  | cons line rest ih =>
    intro t
    obtain ⟨ops1, h1⟩ := readLine_only_inserts line t
    rcases hE : readLine line t with ⟨t2, b⟩
    have h1b : t2 = ops1.foldl (fun t2 q => insert q.1 q.2.1 q.2.2 t2) t := by
      rw [← h1, hE]
    cases b with
    | false =>
      refine ⟨ops1, ?_⟩
      simp only [readLines, hE]
      exact h1b
    | true =>
      obtain ⟨ops2, h2⟩ := ih t2
      refine ⟨ops1 ++ ops2, ?_⟩
      simp only [readLines, hE]
      rw [List.foldl_append, ← h1b]
      exact h2

/-! ### Claim theorems (persistence codec) -/

/-- Counterexample to claim C6 as stated: the codec does not escape its
delimiters, so a populated tree whose key contains a colon (here the single
key `a:b`) does not survive a write/read round trip — the reloaded index no
longer contains the key. -/
theorem claim_C6_roundtrip_cex :
    contains (insert ['a', ':', 'b'] ['d'] 1 Tree.nil) ['a', ':', 'b'] = true ∧
    contains ((readFromTextFile
        (writeToTextFile (insert ['a', ':', 'b'] ['d'] 1 Tree.nil))
        Tree.nil).1) ['a', ':', 'b'] = false := by
  decide

/-- Claim C6 (amended): for every populated, well-formed AvlTree whose keys
contain no `:` or newline and whose document ids contain no `,` or newline,
writing with `writeToTextFile` and reading back with `readFromTextFile` into a
fresh empty tree completes without error and yields an index with identical
`contains` and posting-lookup results for every key (the physical shape may
differ; only the key/posting mapping is compared).  The stored counts are
additionally assumed to lie in the `int` range — automatic for every state
the program can hold, since the C++ count member has type `int` — so that
their decimal renderings re-parse without `std::out_of_range`. -/
theorem claim_C6_roundtrip_amended (t : Tree) (ho : orderedB t = true)
    (hp : pmapsOkB t = true) (hc : treeCharsOkB t = true)
    (hn : treeCountsOkB t = true) :
    (readFromTextFile (writeToTextFile t) Tree.nil).2 = true ∧
    ∀ k : Str,
      contains (readFromTextFile (writeToTextFile t) Tree.nil).1 k =
        contains t k ∧
      getWordMapAtKey (readFromTextFile (writeToTextFile t) Tree.nil).1 k =
        getWordMapAtKey t k := by
  have hchars := treeChars_inorder hc
  have hnl : ∀ l ∈ writeLines t, ∀ a ∈ l, ¬ a = '\n' := by
    intro l hl
    obtain ⟨p, hp2, he⟩ := List.mem_map.mp hl
    subst he
    exact nodeLine_no_newline (hchars p hp2).1 (hchars p hp2).2
  have h1 : getlines (writeToTextFile t) = writeLines t := getlines_flatten _ hnl
  have h2 := readLines_writeLines (inorder t) Tree.nil
    (fun p hp2 => ⟨fun a ha => ((hchars p hp2).1 a ha).1,
                   fun q hq a ha => ((hchars p hp2).2 q hq a ha).1,
                   treeCounts_inorder hn p hp2⟩)
  have h3 := fold_nodes_model (inorder t) Tree.nil rfl
  have h4 := fold_nodes_assoc (inorder t) [] (by simpa using ho) (pmapsOk_inorder hp)
  have hread : readFromTextFile (writeToTextFile t) Tree.nil =
      ((inorder t).foldl
        (fun t2 p => p.2.foldl (fun t3 q => insert p.1 q.1 q.2 t3) t2) Tree.nil,
        true) := by
    rw [readFromTextFile, h1]
    exact h2
  rw [hread]
  refine ⟨rfl, ?_⟩
  intro k
  have hinor : inorder ((inorder t).foldl
      (fun t2 p => p.2.foldl (fun t3 q => insert p.1 q.1 q.2 t3) t2) Tree.nil) =
      inorder t := by
    rw [h3.2]
    simpa using h4
  obtain ⟨g1, c1⟩ := lookup_inorder ((inorder t).foldl
    (fun t2 p => p.2.foldl (fun t3 q => insert p.1 q.1 q.2 t3) t2) Tree.nil) k h3.1
  obtain ⟨g2, c2⟩ := lookup_inorder t k ho
  constructor
  · rw [c1, c2, hinor]
  · rw [g1, g2, hinor]

/-- Witness for C6 (amended) at the spec's own test data:
`example → {doc1: 5, doc2: 3}` and `test → {doc1: 7}`. -/
theorem claim_C6_roundtrip_amended_witness :
    orderedB (insert ['t', 'e', 's', 't'] ['d', 'o', 'c', '1'] 7
      (insert ['e', 'x', 'a', 'm', 'p', 'l', 'e'] ['d', 'o', 'c', '2'] 3
        (insert ['e', 'x', 'a', 'm', 'p', 'l', 'e'] ['d', 'o', 'c', '1'] 5
          Tree.nil))) = true ∧
    pmapsOkB (insert ['t', 'e', 's', 't'] ['d', 'o', 'c', '1'] 7
      (insert ['e', 'x', 'a', 'm', 'p', 'l', 'e'] ['d', 'o', 'c', '2'] 3
        (insert ['e', 'x', 'a', 'm', 'p', 'l', 'e'] ['d', 'o', 'c', '1'] 5
          Tree.nil))) = true ∧
    treeCharsOkB (insert ['t', 'e', 's', 't'] ['d', 'o', 'c', '1'] 7
      (insert ['e', 'x', 'a', 'm', 'p', 'l', 'e'] ['d', 'o', 'c', '2'] 3
        (insert ['e', 'x', 'a', 'm', 'p', 'l', 'e'] ['d', 'o', 'c', '1'] 5
          Tree.nil))) = true ∧
    treeCountsOkB (insert ['t', 'e', 's', 't'] ['d', 'o', 'c', '1'] 7
      (insert ['e', 'x', 'a', 'm', 'p', 'l', 'e'] ['d', 'o', 'c', '2'] 3
        (insert ['e', 'x', 'a', 'm', 'p', 'l', 'e'] ['d', 'o', 'c', '1'] 5
          Tree.nil))) = true ∧
    getWordMapAtKey ((readFromTextFile (writeToTextFile
      (insert ['t', 'e', 's', 't'] ['d', 'o', 'c', '1'] 7
        (insert ['e', 'x', 'a', 'm', 'p', 'l', 'e'] ['d', 'o', 'c', '2'] 3
          (insert ['e', 'x', 'a', 'm', 'p', 'l', 'e'] ['d', 'o', 'c', '1'] 5
            Tree.nil)))) Tree.nil).1) ['e', 'x', 'a', 'm', 'p', 'l', 'e'] =
      getWordMapAtKey (insert ['t', 'e', 's', 't'] ['d', 'o', 'c', '1'] 7
        (insert ['e', 'x', 'a', 'm', 'p', 'l', 'e'] ['d', 'o', 'c', '2'] 3
          (insert ['e', 'x', 'a', 'm', 'p', 'l', 'e'] ['d', 'o', 'c', '1'] 5
            Tree.nil))) ['e', 'x', 'a', 'm', 'p', 'l', 'e'] :=
  ⟨by decide, by decide, by decide, by decide,
    (((claim_C6_roundtrip_amended _ (by decide) (by decide) (by decide)
        (by decide)).2)
      ['e', 'x', 'a', 'm', 'p', 'l', 'e']).2⟩

/-- Counterexample to claim C7 as stated: on the single line `k:(d,x)` the
well-delimited group has the non-numeric count text `x`, `std::stoi` throws
`std::invalid_argument`, and the exception escapes `readFromTextFile` (the
`false` flag); the claim said no exception ever escapes the call. -/
theorem claim_C7_no_abort_cex :
    readFromTextFile ['k', ':', '(', 'd', ',', 'x', ')'] Tree.nil =
      (Tree.nil, false) := by
  decide

/-- Claim C7 (amended), each part general over arbitrary content: a line with
no colon is reported and skipped with processing continuing on the next lines
(first conjunct); a group whose comma or closing parenthesis is missing stops
the scan with the tree kept and no abort — `s` and `t` range over every
intermediate scan state of the loop, so this covers a malformation at any
group position, with all prior groups already inserted into `t` (second
conjunct); a line that completes without abort hands its extended tree to the
remaining lines, so a malformed group stops that line only (third conjunct);
a well-delimited group whose count text `std::stoi` rejects — no leading
integer (`std::invalid_argument`) or a value outside the `int` range
(`std::out_of_range`) — aborts with the tree kept, the escaping exception
(fourth conjunct), and the abort ends the line loop at once (fifth conjunct),
as on the concrete files with a non-numeric and an oversized count (sixth
conjunct); and in every case the resulting tree is the input tree plus some
sequence of per-group inserts — at worst a partial index (last conjunct). -/
theorem claim_C7_error_handling_amended :
    (∀ (line : Str) (rest : List Str) (t : Tree), splitFirst ':' line = none →
      readLines (line :: rest) t = readLines rest t) ∧
    (∀ (key s : Str) (t : Tree) (pre afterOpen : Str),
      splitFirst '(' s = some (pre, afterOpen) →
      (splitFirst ',' afterOpen = none ∨
        ∃ d afterComma, splitFirst ',' afterOpen = some (d, afterComma) ∧
          splitFirst ')' afterComma = none) →
      parseGroups key s t = (t, true)) ∧
    (∀ (line : Str) (rest : List Str) (t : Tree), (readLine line t).2 = true →
      readLines (line :: rest) t = readLines rest (readLine line t).1) ∧
    (∀ (key s : Str) (t : Tree) (pre afterOpen d afterComma cs afterClose : Str),
      splitFirst '(' s = some (pre, afterOpen) →
      splitFirst ',' afterOpen = some (d, afterComma) →
      splitFirst ')' afterComma = some (cs, afterClose) →
      stoiOpt cs = none →
      parseGroups key s t = (t, false)) ∧
    (∀ (line : Str) (rest : List Str) (t : Tree), (readLine line t).2 = false →
      readLines (line :: rest) t = ((readLine line t).1, false)) ∧
    (readFromTextFile
      ['a', ':', '(', 'd', ',', '2', ')', '\n', 'k', ':', '(', 'd', ',', 'x', ')']
      Tree.nil = (insert ['a'] ['d'] 2 Tree.nil, false) ∧
     readFromTextFile
      ['k', ':', '(', 'd', ',', '9', '9', '9', '9', '9', '9', '9', '9', '9',
       '9', '9', '9', '9', ')'] Tree.nil = (Tree.nil, false)) ∧
    (∀ (file : Str) (t : Tree), ∃ ops : List (Str × Str × Int),
      (readFromTextFile file t).1 =
        ops.foldl (fun t2 q => insert q.1 q.2.1 q.2.2 t2) t) := by
  refine ⟨?_, ?_, ?_, ?_, ?_, ⟨by decide, by decide⟩, ?_⟩
  · intro line rest t hline
    simp only [readLines, readLine, hline]
  · intro key s t pre afterOpen h1 h2
    rcases h2 with h2 | ⟨d, afterComma, h2, h3⟩
    · simp only [parseGroups, parseGroupsF, h1, h2]
    · simp only [parseGroups, parseGroupsF, h1, h2, h3]
  · intro line rest t h
    rcases hE : readLine line t with ⟨t2, b⟩
    rw [hE] at h
    have hb : b = true := h
    subst hb
    simp [readLines, hE]
  · intro key s t pre afterOpen d afterComma cs afterClose h1 h2 h3 h4
    simp only [parseGroups, parseGroupsF, h1, h2, h3, h4]
  · intro line rest t h
    rcases hE : readLine line t with ⟨t2, b⟩
    rw [hE] at h
    have hb : b = false := h
    subst hb
    simp [readLines, hE]
  · intro file t
    exact readLines_only_inserts (getlines file) t

/-- Witness for C7 (amended): the colon-free line `no` is skipped with
processing continuing; the group `(d` with no comma stops with the tree kept
and no abort; the well-delimited group `(d,x)` with a non-numeric count
aborts with the tree kept. -/
theorem claim_C7_error_handling_amended_witness :
    (splitFirst ':' ['n', 'o'] = none ∧
      readLines [['n', 'o'], ['k', ':', '(', 'd', ',', '3', ')']] Tree.nil =
        readLines [['k', ':', '(', 'd', ',', '3', ')']] Tree.nil) ∧
    (splitFirst '(' ['(', 'd'] = some ([], ['d']) ∧
      splitFirst ',' ['d'] = none ∧
      parseGroups ['k'] ['(', 'd'] Tree.nil = (Tree.nil, true)) ∧
    (splitFirst '(' ['(', 'd', ',', 'x', ')'] = some ([], ['d', ',', 'x', ')']) ∧
      splitFirst ',' ['d', ',', 'x', ')'] = some (['d'], ['x', ')']) ∧
      splitFirst ')' ['x', ')'] = some (['x'], []) ∧
      stoiOpt ['x'] = none ∧
      parseGroups ['k'] ['(', 'd', ',', 'x', ')'] Tree.nil = (Tree.nil, false)) :=
  ⟨⟨by decide,
    claim_C7_error_handling_amended.1 ['n', 'o']
      [['k', ':', '(', 'd', ',', '3', ')']] Tree.nil (by decide)⟩,
   ⟨by decide, by decide,
    claim_C7_error_handling_amended.2.1 ['k'] ['(', 'd'] Tree.nil [] ['d']
      (by decide) (Or.inl (by decide))⟩,
   ⟨by decide, by decide, by decide, by decide,
    claim_C7_error_handling_amended.2.2.2.1 ['k'] ['(', 'd', ',', 'x', ')']
      Tree.nil [] ['d', ',', 'x', ')'] ['d'] ['x', ')'] ['x'] []
      (by decide) (by decide) (by decide) (by decide)⟩⟩

/-! ### Map utilities for the query-engine proofs -/

theorem mapFind_append {l1 l2 : PMap} {k : Str} :
    mapFind (l1 ++ l2) k =
      match mapFind l1 k with
      | some v => some v
      | none => mapFind l2 k := by
  induction l1 with
  | nil => simp [mapFind]
  | cons p rest ih =>
    obtain ⟨a, v⟩ := p
    simp only [List.cons_append, mapFind]
    by_cases ha : a = k
    · rw [if_pos ha, if_pos ha]
    · rw [if_neg ha, if_neg ha]
      exact ih

theorem keySortedB_snoc {α : Type} {l : List (Str × α)} {k : Str} {v : α}
    (h1 : keySortedB l = true) (h2 : ∀ p ∈ l, ltStr p.1 k = true) :
    keySortedB (l ++ [(k, v)]) = true := by
  induction l with
  | nil => rfl
  | cons p rest ih =>
    obtain ⟨a, m⟩ := p
    have ht := keySortedB_cons_tail h1
    have hh := keySortedB_cons_head h1
    rw [List.cons_append]
    refine keySortedB_cons_of (ih ht (fun q hq => h2 q (by simp [hq]))) ?_
    intro q hq
    rw [List.mem_append] at hq
    rcases hq with hq | hq
    · exact hh q hq
    · simp at hq
      rw [hq]
      exact h2 (a, m) (by simp)

theorem mapFind_mapErase {m : PMap} {a k : Str} (hs : keySortedB m = true) :
    mapFind (mapErase m a) k = if k = a then none else mapFind m k := by
  induction m with
  | nil => simp [mapErase, mapFind]
  | cons p rest ih =>
    obtain ⟨b, v⟩ := p
    have ht := keySortedB_cons_tail hs
    have hh := keySortedB_cons_head hs
    simp only [mapErase]
    by_cases hb : b = a
    · subst hb
      rw [if_pos rfl]
      by_cases hk : k = b
      · subst hk
        rw [if_pos rfl]
        exact mapFind_none_of_gt (fun q hq => hh q hq)
      · rw [if_neg hk]
        simp only [mapFind]
        rw [if_neg (fun he => hk he.symm)]
    · rw [if_neg hb]
      simp only [mapFind]
      by_cases hk : b = k
      · subst hk
        rw [if_pos rfl, if_neg (fun he => hb he), if_pos rfl]
      · rw [if_neg hk, if_neg hk, ih ht]

theorem mapErase_subset {m : PMap} {a : Str} : ∀ q ∈ mapErase m a, q ∈ m := by
  induction m with
  | nil => intro q hq; cases hq
  | cons p rest ih =>
    obtain ⟨b, v⟩ := p
    intro q hq
    simp only [mapErase] at hq
    by_cases hb : b = a
    · rw [if_pos hb] at hq
      exact List.mem_cons_of_mem _ hq
    · rw [if_neg hb] at hq
      cases hq with
      | head => exact List.mem_cons_self _ _
      | tail _ hq2 => exact List.mem_cons_of_mem _ (ih q hq2)

theorem mapErase_sorted {m : PMap} {a : Str} (hs : keySortedB m = true) :
    keySortedB (mapErase m a) = true := by
  induction m with
  | nil => rfl
  | cons p rest ih =>
    obtain ⟨b, v⟩ := p
    have ht := keySortedB_cons_tail hs
    have hh := keySortedB_cons_head hs
    simp only [mapErase]
    by_cases hb : b = a
    · rw [if_pos hb]
      exact ht
    · rw [if_neg hb]
      exact keySortedB_cons_of (ih ht) (fun q hq => hh q (mapErase_subset q hq))

theorem mapSet_append_last {acc : PMap} {k : Str} {v : Int}
    (h : ∀ p ∈ acc, ltStr p.1 k = true) : mapSet acc k v = acc ++ [(k, v)] := by
  induction acc with
  | nil => rfl
  | cons p rest ih =>
    obtain ⟨a, w⟩ := p
    have ha : ltStr a k = true := h (a, w) (by simp)
    simp only [mapSet]
    rw [if_neg (by simp [ltStr_asymm ha]), if_pos ha,
      ih (fun q hq => h q (by simp [hq]))]
    rfl

theorem mapInsertKeep_append_last {acc : PMap} {k : Str} {v : Int}
    (h : ∀ p ∈ acc, ltStr p.1 k = true) :
    mapInsertKeep acc k v = acc ++ [(k, v)] := by
  induction acc with
  | nil => rfl
  | cons p rest ih =>
    obtain ⟨a, w⟩ := p
    have ha : ltStr a k = true := h (a, w) (by simp)
    simp only [mapInsertKeep]
    rw [if_neg (by simp [ltStr_asymm ha]), if_pos ha,
      ih (fun q hq => h q (by simp [hq]))]
    rfl

/-! ### The intersection loop -/

theorem interGo_fst (m1 : PMap) :
    ∀ (m2 acc : PMap) (k : Str), keySortedB m1 = true → keySortedB m2 = true →
      keySortedB acc = true → (∀ p ∈ m1, ∀ q ∈ acc, ltStr q.1 p.1 = true) →
      mapFind (interGo m1 m2 acc).1 k =
        match mapFind acc k with
        | some v => some v
        | none =>
          match mapFind m1 k, mapFind m2 k with
          | some a, some b => some (a + b)
          | _, _ => none := by
  induction m1 with
  | nil =>
    intro m2 acc k h1 h2 hacc hb
    simp only [interGo, mapFind]
    cases mapFind acc k <;> rfl
  | cons p rest ih =>
    intro m2 acc k h1 h2 hacc hb
    obtain ⟨a, v⟩ := p
    have ht := keySortedB_cons_tail h1
    have hh := keySortedB_cons_head h1
    have bnd_a : ∀ q ∈ acc, ltStr q.1 a = true := hb (a, v) (by simp)
    cases hf : mapFind m2 a with
    | some w =>
      simp only [interGo, hf]
      rw [mapSet_append_last bnd_a]
      rw [ih (mapErase m2 a) (acc ++ [(a, v + w)]) k ht (mapErase_sorted h2)
        (keySortedB_snoc hacc bnd_a) ?bnd]
      case bnd =>
        intro p hp q hq
        rw [List.mem_append] at hq
        rcases hq with hq | hq
        · exact hb p (by simp [hp]) q hq
        · simp at hq
          rw [hq]
          exact hh p hp
      rw [mapFind_append, mapFind_mapErase h2]
      by_cases hka : k = a
      · subst hka
        rw [mapFind_none_of_lt bnd_a]
        simp [mapFind, hf]
      · have hak : ¬ a = k := fun he => hka he.symm
        simp only [mapFind, if_neg hak, if_neg hka]
        cases mapFind acc k <;> rfl
    | none =>
      simp only [interGo, hf]
      rw [ih m2 acc k ht h2 hacc (fun p hp q hq => hb p (by simp [hp]) q hq)]
      by_cases hka : k = a
      · subst hka
        rw [mapFind_none_of_lt bnd_a, mapFind_none_of_gt hh]
        simp [mapFind, hf]
      · have hak : ¬ a = k := fun he => hka he.symm
        simp only [mapFind, if_neg hak]

theorem interGo_fst_sorted (m1 : PMap) :
    ∀ (m2 acc : PMap), keySortedB m1 = true → keySortedB acc = true →
      (∀ p ∈ m1, ∀ q ∈ acc, ltStr q.1 p.1 = true) →
      keySortedB (interGo m1 m2 acc).1 = true := by
  induction m1 with
  | nil =>
    intro m2 acc h1 hacc hb
    exact hacc
  | cons p rest ih =>
    intro m2 acc h1 hacc hb
    obtain ⟨a, v⟩ := p
    have ht := keySortedB_cons_tail h1
    have hh := keySortedB_cons_head h1
    have bnd_a : ∀ q ∈ acc, ltStr q.1 a = true := hb (a, v) (by simp)
    cases hf : mapFind m2 a with
    | some w =>
      simp only [interGo, hf]
      rw [mapSet_append_last bnd_a]
      refine ih (mapErase m2 a) (acc ++ [(a, v + w)])
        ht (keySortedB_snoc hacc bnd_a) ?_
      intro p hp q hq
      rw [List.mem_append] at hq
      rcases hq with hq | hq
      · exact hb p (by simp [hp]) q hq
      · simp at hq
        rw [hq]
        exact hh p hp
    | none =>
      simp only [interGo, hf]
      exact ih m2 acc ht hacc (fun p hp q hq => hb p (by simp [hp]) q hq)

theorem interGo_snd (m1 : PMap) :
    ∀ (m2 acc : PMap) (k : Str), keySortedB m1 = true → keySortedB m2 = true →
      mapFind (interGo m1 m2 acc).2 k =
        if (mapFind m1 k).isSome then none else mapFind m2 k := by
  induction m1 with
  | nil =>
    intro m2 acc k h1 h2
    simp [interGo, mapFind]
  | cons p rest ih =>
    intro m2 acc k h1 h2
    obtain ⟨a, v⟩ := p
    have ht := keySortedB_cons_tail h1
    have hh := keySortedB_cons_head h1
    cases hf : mapFind m2 a with
    | some w =>
      simp only [interGo, hf]
      rw [ih (mapErase m2 a) (mapSet acc a (v + w)) k ht (mapErase_sorted h2)]
      rw [mapFind_mapErase h2]
      by_cases hka : k = a
      · subst hka
        rw [mapFind_none_of_gt hh]
        simp [mapFind, hf]
      · have hak : ¬ a = k := fun he => hka he.symm
        simp only [mapFind, if_neg hak, if_neg hka]
    | none =>
      simp only [interGo, hf]
      rw [ih m2 acc k ht h2]
      by_cases hka : k = a
      · subst hka
        rw [mapFind_none_of_gt hh, hf]
        simp [mapFind]
      · have hak : ¬ a = k := fun he => hka he.symm
        simp only [mapFind, if_neg hak]

theorem intersectMaps_fst_find {m1 m2 : PMap} {k : Str}
    (h1 : keySortedB m1 = true) (h2 : keySortedB m2 = true) :
    mapFind (intersectMaps m1 m2).1 k =
      match mapFind m1 k, mapFind m2 k with
      | some a, some b => some (a + b)
      | _, _ => none := by
  have := interGo_fst m1 m2 [] k h1 h2 rfl (fun p _ q hq => absurd hq (by simp))
  simpa [mapFind] using this

theorem intersectMaps_fst_sorted {m1 m2 : PMap} (h1 : keySortedB m1 = true) :
    keySortedB (intersectMaps m1 m2).1 = true :=
  interGo_fst_sorted m1 m2 [] h1 rfl (fun p _ q hq => absurd hq (by simp))

theorem intersectMaps_snd_find {m1 m2 : PMap} {k : Str}
    (h1 : keySortedB m1 = true) (h2 : keySortedB m2 = true) :
    mapFind (intersectMaps m1 m2).2 k =
      if (mapFind m1 k).isSome then none else mapFind m2 k :=
  interGo_snd m1 m2 [] k h1 h2

/-- The intersection fold of `processQuery`: a document survives iff it is
present in every positive map, and its score is the sum of all its counts. -/
theorem interFold_fst_find (ms : List PMap) :
    ∀ (m : PMap) (k : Str), keySortedB m = true →
      (∀ mi ∈ ms, keySortedB mi = true) →
      mapFind (interFold m ms).1 k =
        if (m :: ms).all (fun mi => (mapFind mi k).isSome) then
          some (((m :: ms).map (fun mi => (mapFind mi k).getD 0)).sum)
        else none := by
  induction ms with
  | nil =>
    intro m k hm hms
    simp only [interFold, List.all_cons, List.all_nil, List.map_cons, List.map_nil,
      List.sum_cons, List.sum_nil, Bool.and_true]
    cases hf : mapFind m k with
    | some v => simp
    | none => simp
  | cons m2 rest ih =>
    intro m k hm hms
    have hm2 : keySortedB m2 = true := hms m2 (by simp)
    have hrest : ∀ mi ∈ rest, keySortedB mi = true := fun mi hmi => hms mi (by simp [hmi])
    show mapFind (interFold (intersectMaps m m2).1 rest).1 k = _
    rw [ih (intersectMaps m m2).1 k (intersectMaps_fst_sorted hm) hrest]
    simp only [List.all_cons, List.map_cons, List.sum_cons]
    rw [intersectMaps_fst_find hm hm2]
    cases hf1 : mapFind m k with
    | none => simp
    | some a =>
      cases hf2 : mapFind m2 k with
      | none => simp
      | some b =>
        simp only [Option.isSome_some, Option.getD_some, Bool.true_and]
        by_cases hall : rest.all (fun mi => (mapFind mi k).isSome) = true
        · rw [if_pos hall, if_pos hall]
          congr 1
          ring
        · have hallf : rest.all (fun mi => (mapFind mi k).isSome) = false := by
            revert hall
            cases rest.all (fun mi => (mapFind mi k).isSome) <;> simp
          rw [hallf]
          simp

theorem interFold_fst_sorted (ms : List PMap) :
    ∀ (m : PMap), keySortedB m = true →
      keySortedB (interFold m ms).1 = true := by
  induction ms with
  | nil => exact fun m hm => hm
  | cons m2 rest ih =>
    intro m hm
    exact ih (intersectMaps m m2).1 (intersectMaps_fst_sorted hm)

/-! ### The exclusion loop -/

theorem exGo_find (m : PMap) :
    ∀ (bad acc : PMap) (k : Str), keySortedB m = true → keySortedB acc = true →
      (∀ p ∈ m, ∀ q ∈ acc, ltStr q.1 p.1 = true) →
      mapFind (exGo m bad acc) k =
        match mapFind acc k with
        | some v => some v
        | none => if (mapFind bad k).isSome then none else mapFind m k := by
  induction m with
  | nil =>
    intro bad acc k hm hacc hb
    simp only [exGo, mapFind]
    cases mapFind acc k with
    | some v => rfl
    | none => cases (mapFind bad k).isSome <;> simp
  | cons p rest ih =>
    intro bad acc k hm hacc hb
    obtain ⟨a, v⟩ := p
    have ht := keySortedB_cons_tail hm
    have hh := keySortedB_cons_head hm
    have bnd_a : ∀ q ∈ acc, ltStr q.1 a = true := hb (a, v) (by simp)
    cases hf : mapFind bad a with
    | some w =>
      simp only [exGo, hf]
      rw [ih bad acc k ht hacc (fun p hp q hq => hb p (by simp [hp]) q hq)]
      by_cases hka : k = a
      · subst hka
        rw [mapFind_none_of_lt bnd_a, mapFind_none_of_gt hh, hf]
        simp [mapFind]
      · have hak : ¬ a = k := fun he => hka he.symm
        simp only [mapFind, if_neg hak]
    | none =>
      simp only [exGo, hf]
      rw [mapInsertKeep_append_last bnd_a]
      rw [ih bad (acc ++ [(a, v)]) k ht (keySortedB_snoc hacc bnd_a) ?bnd]
      case bnd =>
        intro p hp q hq
        rw [List.mem_append] at hq
        rcases hq with hq | hq
        · exact hb p (by simp [hp]) q hq
        · simp at hq
          rw [hq]
          exact hh p hp
      rw [mapFind_append]
      by_cases hka : k = a
      · subst hka
        rw [mapFind_none_of_lt bnd_a, hf]
        simp [mapFind]
      · have hak : ¬ a = k := fun he => hka he.symm
        simp only [mapFind, if_neg hak, if_neg hka]
        cases mapFind acc k <;> rfl

theorem exGo_sorted (m : PMap) :
    ∀ (bad acc : PMap), keySortedB m = true → keySortedB acc = true →
      (∀ p ∈ m, ∀ q ∈ acc, ltStr q.1 p.1 = true) →
      keySortedB (exGo m bad acc) = true := by
  induction m with
  | nil => exact fun bad acc _ hacc _ => hacc
  | cons p rest ih =>
    intro bad acc hm hacc hb
    obtain ⟨a, v⟩ := p
    have ht := keySortedB_cons_tail hm
    have hh := keySortedB_cons_head hm
    have bnd_a : ∀ q ∈ acc, ltStr q.1 a = true := hb (a, v) (by simp)
    cases hf : mapFind bad a with
    | some w =>
      simp only [exGo, hf]
      exact ih bad acc ht hacc (fun p hp q hq => hb p (by simp [hp]) q hq)
    | none =>
      simp only [exGo, hf]
      rw [mapInsertKeep_append_last bnd_a]
      refine ih bad (acc ++ [(a, v)]) ht (keySortedB_snoc hacc bnd_a) ?_
      intro p hp q hq
      rw [List.mem_append] at hq
      rcases hq with hq | hq
      · exact hb p (by simp [hp]) q hq
      · simp at hq
        rw [hq]
        exact hh p hp

theorem excludeMaps_find {m bad : PMap} {k : Str} (hm : keySortedB m = true) :
    mapFind (excludeMaps m bad) k =
      if (mapFind bad k).isSome then none else mapFind m k := by
  have := exGo_find m bad [] k hm rfl (fun p _ q hq => absurd hq (by simp))
  simpa [mapFind] using this

theorem excludeMaps_sorted {m bad : PMap} (hm : keySortedB m = true) :
    keySortedB (excludeMaps m bad) = true :=
  exGo_sorted m bad [] hm rfl (fun p _ q hq => absurd hq (by simp))

/-- Applying every exclusion map: a document survives iff it appears in no
exclusion map, with unchanged score. -/
theorem excludeFold_find (bs : List PMap) :
    ∀ (r : PMap) (k : Str), keySortedB r = true →
      mapFind (bs.foldl (fun r2 bad => excludeMaps r2 bad) r) k =
        if bs.all (fun b => (mapFind b k).isNone) then mapFind r k else none := by
  induction bs with
  | nil =>
    intro r k hr
    simp
  | cons b rest ih =>
    intro r k hr
    simp only [List.foldl_cons]
    rw [ih (excludeMaps r b) k (excludeMaps_sorted hr)]
    rw [excludeMaps_find hr]
    cases hf : mapFind b k with
    | some v => simp [hf]
    | none => simp [hf]

/-! ### Ranking and pagination -/

theorem insertDesc_sorted {l : List (Str × Int)} {p : Str × Int}
    (h : pairsSortedDescB l = true) : pairsSortedDescB (insertDesc p l) = true := by
  induction l with
  | nil => rfl
  | cons q rest ih =>
    simp only [insertDesc]
    by_cases hq : q.2 < p.2
    · rw [if_pos hq]
      have : pairsSortedDescB (p :: q :: rest) =
          (decide (q.2 ≤ p.2) && pairsSortedDescB (q :: rest)) := by
        cases q
        rfl
      rw [this]
      simp [le_of_lt hq, h]
    · rw [if_neg hq]
      have ht : pairsSortedDescB rest = true := by
        cases rest with
        | nil => rfl
        | cons r rrest =>
          simp only [pairsSortedDescB, Bool.and_eq_true] at h
          exact h.2
      have hstep := ih ht
      cases hr : rest with
      | nil =>
        simp only [insertDesc, pairsSortedDescB, Bool.and_eq_true]
        exact ⟨by simp; omega, trivial⟩
      | cons r rrest =>
        subst hr
        simp only [pairsSortedDescB, Bool.and_eq_true] at h
        simp only [insertDesc] at hstep ⊢
        by_cases hr2 : r.2 < p.2
        · rw [if_pos hr2] at hstep ⊢
          simp only [pairsSortedDescB, Bool.and_eq_true] at hstep ⊢
          refine ⟨by simp; omega, hstep⟩
        · rw [if_neg hr2] at hstep ⊢
          simp only [pairsSortedDescB, Bool.and_eq_true] at hstep ⊢
          exact ⟨h.1, hstep⟩

theorem sortPairs_sorted (m : PMap) : pairsSortedDescB (sortPairs m) = true := by
  induction m with
  | nil => rfl
  | cons p rest ih =>
    simp only [sortPairs, List.foldr_cons]
    exact insertDesc_sorted ih

theorem insertDesc_perm (p : Str × Int) (l : List (Str × Int)) :
    List.Perm (insertDesc p l) (p :: l) := by
  induction l with
  | nil => exact List.Perm.refl _
  | cons q rest ih =>
    simp only [insertDesc]
    by_cases hq : q.2 < p.2
    · rw [if_pos hq]
    · rw [if_neg hq]
      exact ((ih.cons q).trans (List.Perm.swap p q rest))

theorem sortPairs_perm (m : PMap) : List.Perm (sortPairs m) m := by
  induction m with
  | nil => exact List.Perm.refl _
  | cons p rest ih =>
    simp only [sortPairs, List.foldr_cons]
    exact (insertDesc_perm p _).trans (ih.cons p)

theorem outGo_take : ∀ (l : List (Str × Int)) (c n : Int),
    outGo l c n = l.take (n - c).toNat := by
  intro l
  induction l with
  | nil => intro c n; simp [outGo]
  | cons p rest ih =>
    intro c n
    simp only [outGo]
    by_cases hc : c < n
    · rw [if_pos hc, ih (c + 1) n,
        show (n - c).toNat = (n - (c + 1)).toNat + 1 from by omega]
      rfl
    · rw [if_neg hc, show (n - c).toNat = 0 from by omega]
      rfl

/-- Full behavior of `outputDocuments`: the emitted block is the
`numDocuments`-bounded slice at the cursor, the cursor advances by the number
emitted, the ranked pairs are untouched, and "no documents match" is reported
exactly when the cursor is at or past the end. -/
theorem outputDocuments_spec (s : QPState) (n : Int) :
    (outputDocuments s n).1 = (s.pairs.drop s.searchIndex).take n.toNat ∧
    (outputDocuments s n).2.1.pairs = s.pairs ∧
    (outputDocuments s n).2.1.searchIndex =
      s.searchIndex + (outputDocuments s n).1.length ∧
    ((outputDocuments s n).2.2 = true ↔ s.pairs.length ≤ s.searchIndex) := by
  by_cases he : s.pairs.length ≤ s.searchIndex
  · have hdrop : s.pairs.drop s.searchIndex = [] := List.drop_eq_nil_of_le he
    simp [outputDocuments, if_pos he, hdrop]
    exact he
  · simp only [outputDocuments, if_neg he]
    refine ⟨?_, trivial, ?_, by simp [he]⟩
    · rw [outGo_take]
      simp
    · simp

/-- Token classification touches only the two map vectors: the ranked pairs
and the cursor are untouched. -/
theorem classifyWord_inv (ctx : Ctx) (s : QPState) (w : Str) :
    (classifyWord ctx s w).searchIndex = s.searchIndex ∧
    (classifyWord ctx s w).pairs = s.pairs := by
  simp only [classifyWord]
  split
  · exact ⟨rfl, rfl⟩
  · split
    · exact ⟨rfl, rfl⟩
    · split
      · exact ⟨rfl, rfl⟩
      · split
        · exact ⟨rfl, rfl⟩
        · exact ⟨rfl, rfl⟩

theorem SeperateString_inv (ctx : Ctx) (q : Str) :
    ∀ s : QPState, (SeperateString ctx s q).searchIndex = s.searchIndex ∧
      (SeperateString ctx s q).pairs = s.pairs := by
  show ∀ s, ((tokenizer q).foldl (classifyWord ctx) s).searchIndex = s.searchIndex ∧
    ((tokenizer q).foldl (classifyWord ctx) s).pairs = s.pairs
  induction tokenizer q with
  | nil => exact fun s => ⟨rfl, rfl⟩
  | cons w rest ih =>
    intro s
    simp only [List.foldl_cons]
    obtain ⟨i1, i2⟩ := ih (classifyWord ctx s w)
    obtain ⟨j1, j2⟩ := classifyWord_inv ctx s w
    exact ⟨i1.trans j1, i2.trans j2⟩

theorem processQuery_inv (ctx : Ctx) (s : QPState) (q : Str) :
    (processQuery ctx s q).2.searchIndex = s.searchIndex ∧
    (processQuery ctx s q).2.pairs = s.pairs := by
  obtain ⟨i1, i2⟩ := SeperateString_inv ctx q s
  simp only [processQuery]
  cases hv : (SeperateString ctx s q).vMaps with
  | nil => exact ⟨i1, i2⟩
  | cons m rest => exact ⟨i1, i2⟩

/-! ### Claim theorems (query engine) -/

/-- Claim C1 is violated by the code (`QueryProcessor.h` line 38 is the no-op
expression statement `vectorOfBadMaps;`, not a `clear()`): with word postings
`bank → {d1:3, d2:1}` and `loan → {d1:2}`, the query `bank` on a fresh engine
ranks `{d1:3, d2:1}` — but run after the query `-loan`, the same query `bank`
yields only `{d2:1}`, because the exclusion map of the earlier query is still
stored (third conjunct) and is re-applied. -/
theorem claim_C1_stale_exclusions :
    (runQueryProcessor ctx0 qp0 ['b', 'a', 'n', 'k']).2.1 =
      [(['d', '1'], 3), (['d', '2'], 1)] ∧
    (runQueryProcessor ctx0
        (runQueryProcessor ctx0 qp0 ['-', 'l', 'o', 'a', 'n']).1
        ['b', 'a', 'n', 'k']).2.1 = [(['d', '2'], 1)] ∧
    (runQueryProcessor ctx0 qp0 ['-', 'l', 'o', 'a', 'n']).1.vBadMaps =
      [[(['d', '1'], 2)]] := by
  decide

/-- Claim C2: `processQuery` returns the empty map when the positive-term list
collected by `SeperateString` is empty (no implicit match-everything); and
with no exclusion terms, the result holds a document iff it occurs in every
positive term's posting map, scored with the sum of its per-term counts. -/
theorem claim_C2_intersection (ctx : Ctx) (s : QPState) (q : Str) :
    ((SeperateString ctx s q).vMaps = [] → (processQuery ctx s q).1 = []) ∧
    (∀ (m : PMap) (ms : List PMap) (k : Str),
      (SeperateString ctx s q).vMaps = m :: ms →
      (SeperateString ctx s q).vBadMaps = [] →
      keySortedB m = true → (∀ mi ∈ ms, keySortedB mi = true) →
      mapFind (processQuery ctx s q).1 k =
        if (m :: ms).all (fun mi => (mapFind mi k).isSome) then
          some (((m :: ms).map (fun mi => (mapFind mi k).getD 0)).sum)
        else none) := by
  constructor
  · intro h
    simp only [processQuery]
    rw [h]
  · intro m ms k hv hb hm hms
    simp only [processQuery]
    rw [hv]
    simp only [hb, List.foldl_nil]
    exact interFold_fst_find ms m k hm hms

/-- Witness for C2: `bank loan` over `bank → {d1:3, d2:1}`,
`loan → {d1:2, d3:5}` scores `d1` at `3 + 2 = 5`. -/
theorem claim_C2_intersection_witness :
    (SeperateString ctx1 qp0 ['b', 'a', 'n', 'k', ' ', 'l', 'o', 'a', 'n']).vMaps =
      [[(['d', '1'], 3), (['d', '2'], 1)], [(['d', '1'], 2), (['d', '3'], 5)]] ∧
    (SeperateString ctx1 qp0
      ['b', 'a', 'n', 'k', ' ', 'l', 'o', 'a', 'n']).vBadMaps = [] ∧
    mapFind (processQuery ctx1 qp0
      ['b', 'a', 'n', 'k', ' ', 'l', 'o', 'a', 'n']).1 ['d', '1'] = some 5 := by
  refine ⟨by decide, by decide, ?_⟩
  have h := (claim_C2_intersection ctx1 qp0
    ['b', 'a', 'n', 'k', ' ', 'l', 'o', 'a', 'n']).2
    [(['d', '1'], 3), (['d', '2'], 1)] [[(['d', '1'], 2), (['d', '3'], 5)]]
    ['d', '1'] (by decide) (by decide) (by decide) (by decide)
  rw [h]
  decide

/-- Claim C3: after the positive intersections, every exclusion map is
applied — a document survives the exclusion folds iff it appears in no
exclusion map, and a surviving document keeps its combined score unchanged
(first conjunct, in general); in particular with `bank → {d1:3, d2:1}` and
`loan → {d1:2}`, the query `bank -loan` yields exactly `{d2: 1}`. -/
theorem claim_C3_exclusion :
    (∀ (r : PMap) (bs : List PMap) (k : Str), keySortedB r = true →
      mapFind (bs.foldl (fun r2 bad => excludeMaps r2 bad) r) k =
        if bs.all (fun b => (mapFind b k).isNone) then mapFind r k else none) ∧
    (processQuery ctx0 qp0
      ['b', 'a', 'n', 'k', ' ', '-', 'l', 'o', 'a', 'n']).1 = [(['d', '2'], 1)] :=
  ⟨fun r bs k hr => excludeFold_find bs r k hr, by decide⟩

/-- Witness for C3: excluding `{d1:2}` from `{d1:3, d2:1}` removes `d1` and
keeps `d2` at score 1. -/
theorem claim_C3_exclusion_witness :
    keySortedB [(['d', '1'], (3 : Int)), (['d', '2'], 1)] = true ∧
    mapFind ([[(['d', '1'], (2 : Int))]].foldl (fun r2 bad => excludeMaps r2 bad)
      [(['d', '1'], 3), (['d', '2'], 1)]) ['d', '2'] =
      if ([[(['d', '1'], (2 : Int))]].all
          (fun b => (mapFind b ['d', '2']).isNone)) then
        mapFind [(['d', '1'], (3 : Int)), (['d', '2'], 1)] ['d', '2']
      else none :=
  ⟨by decide,
    claim_C3_exclusion.1 [(['d', '1'], 3), (['d', '2'], 1)] [[(['d', '1'], 2)]]
      ['d', '2'] (by decide)⟩

/-- Claim C10 (implicit frame effect): `intersectMaps` erases from its second
argument every key it shares with the first (keys only in the second remain
with unchanged values — first conjunct, in general); consequently after
`processQuery` on `bank loan` the engine's stored positive maps hold the
mutated `loan` map `{d3:5}` (second conjunct), no longer equal to the posting
map `{d1:2, d3:5}` originally looked up (third conjunct). -/
theorem claim_C10_intersect_mutation :
    (∀ (m1 m2 : PMap) (k : Str), keySortedB m1 = true → keySortedB m2 = true →
      mapFind (intersectMaps m1 m2).2 k =
        if (mapFind m1 k).isSome then none else mapFind m2 k) ∧
    (processQuery ctx1 qp0 ['b', 'a', 'n', 'k', ' ', 'l', 'o', 'a', 'n']).2.vMaps =
      [[(['d', '1'], 3), (['d', '2'], 1)], [(['d', '3'], 5)]] ∧
    getWordMapAtKey ctx1.wordsTree ['l', 'o', 'a', 'n'] =
      [(['d', '1'], 2), (['d', '3'], 5)] :=
  ⟨fun m1 m2 k h1 h2 => intersectMaps_snd_find h1 h2, by decide, by decide⟩

/-- Claim C8: the ranked sequence produced by `sortDocumentsByFrequency` is a
score-descending permutation of the result map (first conjunct);
`outputDocuments n` emits the `n`-bounded slice at the cursor, advances the
cursor by exactly the number emitted, leaves the ranked pairs unchanged, and
reports "no documents match" iff the cursor is already at or past the end
(second conjunct); a fresh `runQueryProcessor` resets the cursor and emits the
top 15 of the new ranking (third conjunct); and on a 20-result ranking,
`outputDocuments 15` followed by `outputDocuments 5` emits all 20 pairs
exactly once, in order, with the cursor ending at 20 (fourth conjunct). -/
theorem claim_C8_pagination :
    (∀ m : PMap, pairsSortedDescB (sortPairs m) = true ∧
      List.Perm (sortPairs m) m) ∧
    (∀ (s : QPState) (n : Int),
      (outputDocuments s n).1 = (s.pairs.drop s.searchIndex).take n.toNat ∧
      (outputDocuments s n).2.1.pairs = s.pairs ∧
      (outputDocuments s n).2.1.searchIndex =
        s.searchIndex + (outputDocuments s n).1.length ∧
      ((outputDocuments s n).2.2 = true ↔ s.pairs.length ≤ s.searchIndex)) ∧
    (∀ (ctx : Ctx) (s : QPState) (q : Str),
      (runQueryProcessor ctx s q).2.1 =
        (runQueryProcessor ctx s q).1.pairs.take 15 ∧
      (runQueryProcessor ctx s q).1.searchIndex =
        (runQueryProcessor ctx s q).2.1.length ∧
      (runQueryProcessor ctx s q).1.pairs =
        sortPairs (processQuery ctx
          { s with pairs := [], vMaps := [], searchIndex := 0 } q).1) ∧
    (∀ s : QPState, s.pairs.length = 20 → s.searchIndex = 0 →
      (outputDocuments s 15).1 ++
        (outputDocuments (outputDocuments s 15).2.1 5).1 = s.pairs ∧
      (outputDocuments (outputDocuments s 15).2.1 5).2.1.searchIndex = 20) := by
  refine ⟨fun m => ⟨sortPairs_sorted m, sortPairs_perm m⟩,
    fun s n => outputDocuments_spec s n, ?_, ?_⟩
  · intro ctx s q
    have hpi := processQuery_inv ctx { s with pairs := [], vMaps := [], searchIndex := 0 } q
    obtain ⟨o1, o2, o3, o4⟩ := outputDocuments_spec
      { (processQuery ctx { s with pairs := [], vMaps := [], searchIndex := 0 } q).2 with
        pairs := (sortPairs
          (processQuery ctx { s with pairs := [], vMaps := [], searchIndex := 0 } q).1) }
      15
    have hidx : ({ (processQuery ctx
          { s with pairs := [], vMaps := [], searchIndex := 0 } q).2 with
        pairs := (sortPairs (processQuery ctx
          { s with pairs := [], vMaps := [], searchIndex := 0 } q).1) } :
        QPState).searchIndex = 0 := hpi.1
    refine ⟨?_, ?_, ?_⟩
    · show (outputDocuments _ 15).1 = (outputDocuments _ 15).2.1.pairs.take 15
      rw [o1, o2, hidx]
      rfl
    · show (outputDocuments _ 15).2.1.searchIndex = (outputDocuments _ 15).1.length
      rw [o3, hidx]
      exact Nat.zero_add _
    · exact o2
  · intro s h20 h0
    obtain ⟨a1, a2, a3, a4⟩ := outputDocuments_spec s 15
    obtain ⟨b1, b2, b3, b4⟩ := outputDocuments_spec (outputDocuments s 15).2.1 5
    have he1 : (outputDocuments s 15).1 = s.pairs.take 15 := by
      rw [a1, h0]
      rfl
    have hlen1 : (outputDocuments s 15).1.length = 15 := by
      rw [he1, List.length_take, h20]
      decide
    have hidx1 : (outputDocuments s 15).2.1.searchIndex = 15 := by
      rw [a3, h0, hlen1]
    have hdl : (s.pairs.drop 15).length = 5 := by
      rw [List.length_drop, h20]
    have he2 : (outputDocuments (outputDocuments s 15).2.1 5).1 = s.pairs.drop 15 := by
      rw [b1, a2, hidx1]
      exact List.take_of_length_le (by rw [hdl]; decide)
    constructor
    · rw [he1, he2]
      exact List.take_append_drop 15 s.pairs
    · rw [b3, hidx1, he2, hdl]

/-- Witness for C8 on a concrete 20-result ranking with scores 20 down to 1:
the two pages cover all 20 pairs exactly once and the cursor ends at 20. -/
theorem claim_C8_pagination_witness :
    st20.pairs.length = 20 ∧ st20.searchIndex = 0 ∧
    ((outputDocuments st20 15).1 ++
      (outputDocuments (outputDocuments st20 15).2.1 5).1 = st20.pairs ∧
    (outputDocuments (outputDocuments st20 15).2.1 5).2.1.searchIndex = 20) :=
  ⟨by decide, by decide,
    claim_C8_pagination.2.2.2 st20 (by decide) (by decide)⟩

/-- Witness for C10: intersecting `{d1:3, d2:1}` with `{d1:2, d3:5}` erases
`d1` from the second map and leaves `d3` untouched. -/
theorem claim_C10_intersect_mutation_witness :
    keySortedB [(['d', '1'], (3 : Int)), (['d', '2'], 1)] = true ∧
    keySortedB [(['d', '1'], (2 : Int)), (['d', '3'], 5)] = true ∧
    mapFind (intersectMaps [(['d', '1'], 3), (['d', '2'], 1)]
      [(['d', '1'], 2), (['d', '3'], 5)]).2 ['d', '3'] =
      if (mapFind [(['d', '1'], (3 : Int)), (['d', '2'], 1)] ['d', '3']).isSome
      then none else mapFind [(['d', '1'], (2 : Int)), (['d', '3'], 5)] ['d', '3'] :=
  ⟨by decide, by decide,
    claim_C10_intersect_mutation.1 [(['d', '1'], 3), (['d', '2'], 1)]
      [(['d', '1'], 2), (['d', '3'], 5)] ['d', '3'] (by decide) (by decide)⟩

end SuperSearch
